import Mathlib

/- Verification of the TAP-RBM core of `paysage` (`src/paysage/models/tap_machine.py`):
   magnetization state, the Gamma functional family of expansion orders 1/2/3, the
   backtracking gradient-descent minimizer, the persistent-pool gradient assembly,
   and the heat-capacity estimator.  Float vectors of the source are modelled as
   functions `Fin n → ℝ`. -/

namespace Paysage

noncomputable section

/-- The `Magnetization` pair of `tap_machine.py` (lines 9-12): a visible vector `v`
and a hidden vector `h`. -/
structure Mag (nv nh : ℕ) where
  v : Fin nv → ℝ
  h : Fin nh → ℝ

/-- Modelled from the spec: the tensor backend (`paysage/backends`, imported as `be`,
is not under `src/`); `be.tsum` is the sum-reduction primitive of spec section 6. -/
def tsum {n : ℕ} (x : Fin n → ℝ) : ℝ := ∑ i, x i

/-- Modelled from the spec: `be.dot` on two vectors (spec section 6, dot-product
primitive). -/
def dotv {n : ℕ} (x y : Fin n → ℝ) : ℝ := ∑ i, x i * y i

/-- Modelled from the spec: `be.dot(w, x)` with a matrix first argument, the
matrix-vector product of spec section 6. -/
def mvdot {nv nh : ℕ} (w : Fin nv → Fin nh → ℝ) (x : Fin nh → ℝ) : Fin nv → ℝ :=
  fun i => ∑ j, w i j * x j

/-- Modelled from the spec: `be.dot(x, w)` with a matrix second argument, the
vector-matrix product of spec section 6. -/
def vmdot {nv nh : ℕ} (x : Fin nv → ℝ) (w : Fin nv → Fin nh → ℝ) : Fin nh → ℝ :=
  fun j => ∑ i, x i * w i j

/-- Modelled from the spec: the backend's `be.divide(x, y)` divides `y` by `x`
elementwise (the convention under which the closed-form gradients of spec
section 4.1 are "algebraically consistent with `gamma_k`"). -/
def divide {n : ℕ} (x y : Fin n → ℝ) : Fin n → ℝ := fun i => y i / x i

/-- Modelled from the spec: `be.clip_inplace(x, lo, hi)` clips every component of
`x` into `[lo, hi]` (spec section 4.2 step b). -/
def clip {n : ℕ} (x : Fin n → ℝ) (lo hi : ℝ) : Fin n → ℝ := fun i => min (max (x i) lo) hi

/-- Modelled from the spec: `be.expit`, the logistic sigmoid used by the data-side
gradient contribution (spec section 4.3 step 4). -/
def expit (x : ℝ) : ℝ := 1 / (1 + Real.exp (-x))

/-- `gamma_MF` (tap_machine.py lines 236-244): the order-1 scalar functional.  The
source subtracts `be.dot(a, m.v)`, `be.dot(b, m.h)` and `be.dot(m.v, a + be.dot(w, m.h))`,
so the visible bias `a` is subtracted twice. -/
def gamma_MF {nv nh : ℕ} (w : Fin nv → Fin nh → ℝ) (a : Fin nv → ℝ) (b : Fin nh → ℝ)
    (m : Mag nv nh) : ℝ :=
  tsum (fun i => m.v i * Real.log (m.v i) + (1 - m.v i) * Real.log (1 - m.v i)) +
  tsum (fun j => m.h j * Real.log (m.h j) + (1 - m.h j) * Real.log (1 - m.h j)) -
  dotv a m.v - dotv b m.h - dotv m.v (fun i => a i + mvdot w m.h i)

/-- `gamma_TAP2` (tap_machine.py lines 248-261): order-2 functional with the
Onsager correction `0.5 * dot(m_v_quad, dot(ww, m_h_quad))`. -/
def gamma_TAP2 {nv nh : ℕ} (w : Fin nv → Fin nh → ℝ) (a : Fin nv → ℝ) (b : Fin nh → ℝ)
    (m : Mag nv nh) : ℝ :=
  tsum (fun i => m.v i * Real.log (m.v i) + (1 - m.v i) * Real.log (1 - m.v i)) +
  tsum (fun j => m.h j * Real.log (m.h j) + (1 - m.h j) * Real.log (1 - m.h j)) -
  dotv b m.h - dotv m.v (fun i => a i + mvdot w m.h i) -
  0.5 * dotv (fun i => m.v i - (m.v i) ^ 2)
    (mvdot (fun i j => (w i j) ^ 2) (fun j => m.h j - (m.h j) ^ 2))

/-- `gamma_TAP3` (tap_machine.py lines 265-282): order-3 functional; the last term is
`(4/3) * tsum(multiply(alias2, multiply(alias1, www)))` with
`alias1 = (0.5 - m.v) * m_v_quad` (column) and `alias2 = (0.5 - m.h) * m_h_quad` (row). -/
def gamma_TAP3 {nv nh : ℕ} (w : Fin nv → Fin nh → ℝ) (a : Fin nv → ℝ) (b : Fin nh → ℝ)
    (m : Mag nv nh) : ℝ :=
  tsum (fun i => m.v i * Real.log (m.v i) + (1 - m.v i) * Real.log (1 - m.v i)) +
  tsum (fun j => m.h j * Real.log (m.h j) + (1 - m.h j) * Real.log (1 - m.h j)) -
  dotv b m.h - dotv m.v (fun i => a i + mvdot w m.h i) -
  0.5 * dotv (fun i => m.v i - (m.v i) ^ 2)
    (mvdot (fun i j => (w i j) ^ 2) (fun j => m.h j - (m.h j) ^ 2)) -
  (4 / 3) * ∑ i, ∑ j,
    ((0.5 - m.h j) * (m.h j - (m.h j) ^ 2)) *
      (((0.5 - m.v i) * (m.v i - (m.v i) ^ 2)) * ((w i j) ^ 2 * w i j))

/-- `grad_v_gamma_MF(m, w, a)` (tap_machine.py lines 111-112). -/
def grad_v_gamma_MF {nv nh : ℕ} (m : Mag nv nh) (w : Fin nv → Fin nh → ℝ)
    (a : Fin nv → ℝ) : Fin nv → ℝ :=
  fun i => Real.log (divide (fun k => 1 - m.v k) m.v i) - a i - mvdot w m.h i

/-- `grad_h_gamma_MF(m, w, b)` (tap_machine.py lines 113-114). -/
def grad_h_gamma_MF {nv nh : ℕ} (m : Mag nv nh) (w : Fin nv → Fin nh → ℝ)
    (b : Fin nh → ℝ) : Fin nh → ℝ :=
  fun j => Real.log (divide (fun k => 1 - m.h k) m.h j) - b j - vmdot m.v w j

/-- `grad_v_gamma_TAP2(m, w, a)` (tap_machine.py lines 117-121). -/
def grad_v_gamma_TAP2 {nv nh : ℕ} (m : Mag nv nh) (w : Fin nv → Fin nh → ℝ)
    (a : Fin nv → ℝ) : Fin nv → ℝ :=
  fun i => Real.log (divide (fun k => 1 - m.v k) m.v i) - a i - mvdot w m.h i -
    (0.5 - m.v i) * mvdot (fun i' j => (w i' j) ^ 2) (fun j => m.h j - (m.h j) ^ 2) i

/-- `grad_h_gamma_TAP2(m, w, b)` (tap_machine.py lines 122-126). -/
def grad_h_gamma_TAP2 {nv nh : ℕ} (m : Mag nv nh) (w : Fin nv → Fin nh → ℝ)
    (b : Fin nh → ℝ) : Fin nh → ℝ :=
  fun j => Real.log (divide (fun k => 1 - m.h k) m.h j) - b j - vmdot m.v w j -
    vmdot (fun i => m.v i - (m.v i) ^ 2) (fun i j' => (w i j') ^ 2) j * (0.5 - m.h j)

/-- `grad_v_gamma_TAP3(m, w, a)` (tap_machine.py lines 129-136). -/
def grad_v_gamma_TAP3 {nv nh : ℕ} (m : Mag nv nh) (w : Fin nv → Fin nh → ℝ)
    (a : Fin nv → ℝ) : Fin nv → ℝ :=
  fun i => Real.log (divide (fun k => 1 - m.v k) m.v i) - a i - mvdot w m.h i -
    (0.5 - m.v i) * mvdot (fun i' j => (w i' j) ^ 2) (fun j => m.h j - (m.h j) ^ 2) i -
    (4 / 3) * ((0.5 - 3 * m.v i + 3 * (m.v i) ^ 2) *
      mvdot (fun i' j => (w i' j) ^ 2 * w i' j)
        (fun j => (0.5 - m.h j) * (m.h j - (m.h j) ^ 2)) i)

/-- `grad_h_gamma_TAP3(m, w, b)` (tap_machine.py lines 137-144). -/
def grad_h_gamma_TAP3 {nv nh : ℕ} (m : Mag nv nh) (w : Fin nv → Fin nh → ℝ)
    (b : Fin nh → ℝ) : Fin nh → ℝ :=
  fun j => Real.log (divide (fun k => 1 - m.h k) m.h j) - b j - vmdot m.v w j -
    vmdot (fun i => m.v i - (m.v i) ^ 2) (fun i j' => (w i j') ^ 2) j * (0.5 - m.h j) -
    (4 / 3) * (vmdot (fun i => (0.5 - m.v i) * (m.v i - (m.v i) ^ 2))
      (fun i j' => (w i j') ^ 2 * w i j') j *
      (0.5 - 3 * m.h j + 3 * (m.h j) ^ 2))

/-- The loop state of `minimize_gamma_GD`: current magnetization `m`, current scalar
value `gam` and current learning rate `lr` (tap_machine.py lines 166-169). -/
structure GDState (nv nh : ℕ) where
  m : Mag nv nh
  gam : ℝ
  lr : ℝ

/-- The provisional point of one descent iteration (tap_machine.py lines 173-177):
a gradient step of size `lr` on each magnetization, clipped into
`[eps, 1 - eps]` with `eps = 1e-6`. -/
def provisional {nv nh : ℕ} (grad_v : Mag nv nh → Fin nv → ℝ)
    (grad_h : Mag nv nh → Fin nh → ℝ) (s : GDState nv nh) : Mag nv nh :=
  ⟨clip (fun i => s.m.v i - s.lr * grad_v s.m i) 1e-6 (1 - 1e-6),
   clip (fun j => s.m.h j - s.lr * grad_h s.m j) 1e-6 (1 - 1e-6)⟩

/-- One iteration of the descent loop body (tap_machine.py lines 172-188).  Returns
the updated state and whether the `while` loop continues: on ascent
(`gam - gam_provisional < 0`) the learning rate is halved and the loop stops iff
the halved rate falls below `1e-10`; on `gam - gam_provisional < tol` the loop
stops keeping the current state; otherwise the provisional pair is adopted. -/
def gdStep {nv nh : ℕ} (gamma : Mag nv nh → ℝ) (grad_v : Mag nv nh → Fin nv → ℝ)
    (grad_h : Mag nv nh → Fin nh → ℝ) (tol : ℝ) (s : GDState nv nh) :
    GDState nv nh × Bool :=
  if s.gam - gamma (provisional grad_v grad_h s) < 0 then
    if s.lr * 0.5 < 1e-10 then (⟨s.m, s.gam, s.lr * 0.5⟩, false)
    else (⟨s.m, s.gam, s.lr * 0.5⟩, true)
  else if s.gam - gamma (provisional grad_v grad_h s) < tol then (s, false)
  else (⟨provisional grad_v grad_h s, gamma (provisional grad_v grad_h s), s.lr⟩, true)

/-- The `while (its < max_iters)` loop of `minimize_gamma_GD` (tap_machine.py
lines 171-188), with the remaining iteration budget as fuel. -/
def gdLoop {nv nh : ℕ} (gamma : Mag nv nh → ℝ) (grad_v : Mag nv nh → Fin nv → ℝ)
    (grad_h : Mag nv nh → Fin nh → ℝ) (tol : ℝ) : ℕ → GDState nv nh → GDState nv nh
  | 0, s => s
  | fuel + 1, s =>
    match gdStep gamma grad_v grad_h tol s with
    | (s', true) => gdLoop gamma grad_v grad_h tol fuel s'
    | (s', false) => s'

/-- A full run of the descent routine for a given functional/gradient triple:
initial evaluation `gam = gamma(m)` (line 169), the loop, and the returned pair
`(m, gam)` (line 190). -/
def gamma_GD_run {nv nh : ℕ} (gamma : Mag nv nh → ℝ) (grad_v : Mag nv nh → Fin nv → ℝ)
    (grad_h : Mag nv nh → Fin nh → ℝ) (m : Mag nv nh) (init_lr tol : ℝ)
    (max_iters : ℕ) : Mag nv nh × ℝ :=
  ((gdLoop gamma grad_v grad_h tol max_iters ⟨m, gamma m, init_lr⟩).m,
   (gdLoop gamma grad_v grad_h tol max_iters ⟨m, gamma m, init_lr⟩).gam)

/-- The expansion-order dispatch of `minimize_gamma_GD` (tap_machine.py
lines 153-164): order 1 pairs `gamma_MF` with the mean-field gradients, order 2
pairs `gamma_TAP2` with the order-2 gradients, and order 3 pairs `gamma_MF`
(not `gamma_TAP3`) with the order-3 gradients.  Any other order leaves the local
`gamma` unbound in the source (a `NameError` on use), modelled as `none`. -/
def select_gamma {nv nh : ℕ} (w : Fin nv → Fin nh → ℝ) (a : Fin nv → ℝ) (b : Fin nh → ℝ)
    (terms : ℕ) :
    Option ((Mag nv nh → ℝ) × (Mag nv nh → Fin nv → ℝ) × (Mag nv nh → Fin nh → ℝ)) :=
  match terms with
  | 1 => some (gamma_MF w a b, fun m => grad_v_gamma_MF m w a, fun m => grad_h_gamma_MF m w b)
  | 2 => some (gamma_TAP2 w a b, fun m => grad_v_gamma_TAP2 m w a, fun m => grad_h_gamma_TAP2 m w b)
  | 3 => some (gamma_MF w a b, fun m => grad_v_gamma_TAP3 m w a, fun m => grad_h_gamma_TAP3 m w b)
  | _ => none

/-- `minimize_gamma_GD(w, a, b, m, init_lr, tol, max_iters, terms)` (tap_machine.py
lines 146-190): dispatch on the expansion order, then the backtracking descent loop. -/
def minimize_gamma_GD {nv nh : ℕ} (w : Fin nv → Fin nh → ℝ) (a : Fin nv → ℝ)
    (b : Fin nh → ℝ) (m : Mag nv nh) (init_lr tol : ℝ) (max_iters terms : ℕ) :
    Option (Mag nv nh × ℝ) :=
  (select_gamma w a b terms).map
    (fun g => gamma_GD_run g.1 g.2.1 g.2.2 m init_lr tol max_iters)

/-- `gibbs_free_energy` (tap_machine.py lines 64-231) for an explicitly supplied
seed: the expansion-order guard of lines 103-104 (a `ValueError` on an order
outside {1,2,3}), then the minimizer.  The random-seed branch of lines 223-229
(taken when the caller passes no seed) is not modelled; the seed is a parameter. -/
def gibbs_free_energy {nv nh : ℕ} (w : Fin nv → Fin nh → ℝ) (a : Fin nv → ℝ)
    (b : Fin nh → ℝ) (seed : Mag nv nh) (init_lr tol : ℝ) (max_iters terms : ℕ) :
    Except String (Mag nv nh × ℝ) :=
  if terms ≠ 1 ∧ terms ≠ 2 ∧ terms ≠ 3 then
    Except.error "Must specify one, two, or three terms in TAP expansion training method"
  else
    match minimize_gamma_GD w a b seed init_lr tol max_iters terms with
    | some r => Except.ok r
    | none => Except.error "unreachable"

/-- The `TAP_rbm` model state (tap_machine.py lines 15-61): parameters, EMF
computation settings, the persistent-sample pool and the expansion order.  Pool
slots are modelled as populated magnetizations (the source initializes them to
`None`, which makes the first gradient call seed them randomly). -/
structure TAP_rbm (nv nh : ℕ) where
  w : Fin nv → Fin nh → ℝ
  a : Fin nv → ℝ
  b : Fin nh → ℝ
  terms : ℕ
  init_lr_EMF : ℝ
  tolerance_EMF : ℝ
  max_iters_EMF : ℕ
  persistent_samples : List (Mag nv nh)

/-- `TAP_rbm.__init__` (tap_machine.py lines 28-61): records the settings and
raises `ValueError` unless `terms` is 1, 2 or 3. -/
def TAP_rbm.make {nv nh : ℕ} (w : Fin nv → Fin nh → ℝ) (a : Fin nv → ℝ)
    (b : Fin nh → ℝ) (terms : ℕ) (init_lr_EMF tolerance_EMF : ℝ)
    (max_iters_EMF : ℕ) (pool : List (Mag nv nh)) : Except String (TAP_rbm nv nh) :=
  if terms ≠ 1 ∧ terms ≠ 2 ∧ terms ≠ 3 then
    Except.error "Must specify one, two, or three terms in TAP expansion training method"
  else
    Except.ok ⟨w, a, b, terms, init_lr_EMF, tolerance_EMF, max_iters_EMF, pool⟩

/-- The persistent-pool loop of `gradient` (tap_machine.py lines 330-340): every
slot is re-minimized seeded from its previous contents and overwritten with the
result; the accumulator carries the best-so-far pair (`m`, `best_EMF`), updated
only on a strict improvement `EMF < best_EMF`.  Returns the new pool, the
selected magnetization (`None` if no slot beat the initial sentinel) and the
final best value. -/
def gradient_pool {nv nh : ℕ} (w : Fin nv → Fin nh → ℝ) (a : Fin nv → ℝ)
    (b : Fin nh → ℝ) (init_lr tol : ℝ) (max_iters terms : ℕ) :
    List (Mag nv nh) → Option (Mag nv nh) → ℝ →
    Option (List (Mag nv nh) × Option (Mag nv nh) × ℝ)
  | [], macc, bacc => some ([], macc, bacc)
  | s :: rest, macc, bacc =>
    match minimize_gamma_GD w a b s init_lr tol max_iters terms with
    | none => none
    | some r =>
      match gradient_pool w a b init_lr tol max_iters terms rest
          (if r.2 < bacc then some r.1 else macc) (if r.2 < bacc then r.2 else bacc) with
      | none => none
      | some out => some (r.1 :: out.1, out.2.1, out.2.2)

/-- `grad_a_gamma` (tap_machine.py lines 284-285). -/
def grad_a_gamma {nv nh : ℕ} (m : Mag nv nh) : Fin nv → ℝ := fun i => -m.v i

/-- `grad_b_gamma` (tap_machine.py lines 286-287). -/
def grad_b_gamma {nv nh : ℕ} (m : Mag nv nh) : Fin nh → ℝ := fun j => -m.h j

/-- `grad_w_gamma_MF` (tap_machine.py lines 288-289). -/
def grad_w_gamma_MF {nv nh : ℕ} (m : Mag nv nh) (w : Fin nv → Fin nh → ℝ) :
    Fin nv → Fin nh → ℝ := fun i j => -(m.v i * m.h j)

/-- `grad_w_gamma_TAP2` (tap_machine.py lines 291-294). -/
def grad_w_gamma_TAP2 {nv nh : ℕ} (m : Mag nv nh) (w : Fin nv → Fin nh → ℝ) :
    Fin nv → Fin nh → ℝ := fun i j =>
  -(m.v i * m.h j) - w i j * ((m.v i - (m.v i) ^ 2) * (m.h j - (m.h j) ^ 2))

/-- `grad_w_gamma_TAP3` (tap_machine.py lines 296-301). -/
def grad_w_gamma_TAP3 {nv nh : ℕ} (m : Mag nv nh) (w : Fin nv → Fin nh → ℝ) :
    Fin nv → Fin nh → ℝ := fun i j =>
  -(m.v i * m.h j) - w i j * ((m.v i - (m.v i) ^ 2) * (m.h j - (m.h j) ^ 2)) -
    4 * ((w i j) ^ 2 *
      (((0.5 - m.v i) * (m.v i - (m.v i) ^ 2)) * ((0.5 - m.h j) * (m.h j - (m.h j) ^ 2))))

/-- The dispatch of `gradient` on `self.terms` (tap_machine.py lines 314-319). -/
def grad_w_dispatch {nv nh : ℕ} (terms : ℕ) :
    Option (Mag nv nh → (Fin nv → Fin nh → ℝ) → Fin nv → Fin nh → ℝ) :=
  match terms with
  | 1 => some grad_w_gamma_MF
  | 2 => some grad_w_gamma_TAP2
  | 3 => some grad_w_gamma_TAP3
  | _ => none

/-- The assembled parameter gradient of `gradient` (tap_machine.py lines 355-362):
one weight-matrix entry and two bias entries. -/
structure GradOut (nv nh : ℕ) where
  dw : Fin nv → Fin nh → ℝ
  da : Fin nv → ℝ
  db : Fin nh → ℝ

/-- `gradient(data_state, model_state)` (tap_machine.py lines 303-366) over a
minibatch of `bs` visible observations.  With an empty pool the minimizer runs
once from `fresh_seed` (standing for the random seed of the source); otherwise
the persistent pool is advanced by `gradient_pool` and the selected magnetization
feeds the model-side terms.  The Python code crashes (AttributeError on `None`)
when no slot beats the `1e7` sentinel; that and an invalid expansion order are
modelled as `none`.  Returns the gradient and the mutated pool. -/
def gradient {nv nh bs : ℕ} (rbm : TAP_rbm nv nh) (data : Fin bs → Fin nv → ℝ)
    (fresh_seed : Mag nv nh) : Option (GradOut nv nh × List (Mag nv nh)) :=
  match @grad_w_dispatch nv nh rbm.terms with
  | none => none
  | some gw =>
    let mpool :=
      match rbm.persistent_samples with
      | [] =>
        (minimize_gamma_GD rbm.w rbm.a rbm.b fresh_seed rbm.init_lr_EMF rbm.tolerance_EMF
            rbm.max_iters_EMF rbm.terms).map (fun r => (some r.1, ([] : List (Mag nv nh))))
      | pool =>
        (gradient_pool rbm.w rbm.a rbm.b rbm.init_lr_EMF rbm.tolerance_EMF
            rbm.max_iters_EMF rbm.terms pool none 1e7).map (fun out => (out.2.1, out.1))
    match mpool with
    | none => none
    | some (none, _) => none
    | some (some m, pool') =>
      let intermediate : Fin bs → Fin nh → ℝ :=
        fun r j => expit (rbm.b j + ∑ i, data r i * rbm.w i j)
      let da : Fin nv → ℝ := fun i => (∑ r, data r i) / bs
      let db : Fin nh → ℝ := fun j => (∑ r, intermediate r j) / bs
      let dw : Fin nv → Fin nh → ℝ := fun i j => (∑ r, data r i * intermediate r j) / bs
      some (⟨fun i j => dw i j + gw m rbm.w i j,
             fun i => da i + grad_a_gamma m i,
             fun j => db j + grad_b_gamma m j⟩, pool')

/-- `grad_beta_beta_TAP3` (tap_machine.py lines 368-380): the order-3 "beta-beta"
scalar functional minimized by the heat-capacity estimator.  The aliased biases
`a` and `b` are unused by the formula, as in the source. -/
def grad_beta_beta_TAP3 {nv nh : ℕ} (w : Fin nv → Fin nh → ℝ) (a : Fin nv → ℝ)
    (b : Fin nh → ℝ) (m : Mag nv nh) : ℝ :=
  2 * (tsum (fun i => m.v i * Real.log (m.v i) + (1 - m.v i) * Real.log (1 - m.v i)) +
    tsum (fun j => m.h j * Real.log (m.h j) + (1 - m.h j) * Real.log (1 - m.h j)) -
    (4 / 3) * ∑ i, ∑ j,
      ((0.5 - m.h j) * (m.h j - (m.h j) ^ 2)) *
        (((0.5 - m.v i) * (m.v i - (m.v i) ^ 2)) * ((w i j) ^ 2 * w i j)))

/-- The local `grad_v` of `heat_capacity` (tap_machine.py lines 389-395); `a` is
accepted and unused as in the source. -/
def hc_grad_v {nv nh : ℕ} (m : Mag nv nh) (w : Fin nv → Fin nh → ℝ)
    (a : Fin nv → ℝ) : Fin nv → ℝ :=
  fun i => 2 * (Real.log (divide (fun k => 1 - m.v k) m.v i) -
    (4 / 3) * ((0.5 - 3 * m.v i + 3 * (m.v i) ^ 2) *
      mvdot (fun i' j => (w i' j) ^ 2 * w i' j)
        (fun j => (0.5 - m.h j) * (m.h j - (m.h j) ^ 2)) i))

/-- The local `grad_h` of `heat_capacity` (tap_machine.py lines 396-402); `b` is
accepted and unused as in the source. -/
def hc_grad_h {nv nh : ℕ} (m : Mag nv nh) (w : Fin nv → Fin nh → ℝ)
    (b : Fin nh → ℝ) : Fin nh → ℝ :=
  fun j => 2 * (Real.log (divide (fun k => 1 - m.h k) m.h j) -
    (4 / 3) * (vmdot (fun i => (0.5 - m.v i) * (m.v i - (m.v i) ^ 2))
      (fun i j' => (w i j') ^ 2 * w i j') j *
      (0.5 - 3 * m.h j + 3 * (m.h j) ^ 2)))

/-- One iteration of the `minimize_GD` loop body inside `heat_capacity`
(tap_machine.py lines 417-435), transcribed independently of `gdStep`. -/
def hcStep {nv nh : ℕ} (w : Fin nv → Fin nh → ℝ) (a : Fin nv → ℝ) (b : Fin nh → ℝ)
    (tol : ℝ) (s : GDState nv nh) : GDState nv nh × Bool :=
  if s.gam - grad_beta_beta_TAP3 w a b
      (⟨clip (fun i => s.m.v i - s.lr * hc_grad_v s.m w a i) 1e-6 (1 - 1e-6),
        clip (fun j => s.m.h j - s.lr * hc_grad_h s.m w b j) 1e-6 (1 - 1e-6)⟩ :
        Mag nv nh) < 0 then
    if s.lr * 0.5 < 1e-10 then (⟨s.m, s.gam, s.lr * 0.5⟩, false)
    else (⟨s.m, s.gam, s.lr * 0.5⟩, true)
  else if s.gam - grad_beta_beta_TAP3 w a b
      (⟨clip (fun i => s.m.v i - s.lr * hc_grad_v s.m w a i) 1e-6 (1 - 1e-6),
        clip (fun j => s.m.h j - s.lr * hc_grad_h s.m w b j) 1e-6 (1 - 1e-6)⟩ :
        Mag nv nh) < tol then (s, false)
  else (⟨(⟨clip (fun i => s.m.v i - s.lr * hc_grad_v s.m w a i) 1e-6 (1 - 1e-6),
          clip (fun j => s.m.h j - s.lr * hc_grad_h s.m w b j) 1e-6 (1 - 1e-6)⟩ :
          Mag nv nh),
        grad_beta_beta_TAP3 w a b
          (⟨clip (fun i => s.m.v i - s.lr * hc_grad_v s.m w a i) 1e-6 (1 - 1e-6),
            clip (fun j => s.m.h j - s.lr * hc_grad_h s.m w b j) 1e-6 (1 - 1e-6)⟩ :
            Mag nv nh), s.lr⟩, true)

/-- The `while` loop of `heat_capacity`'s `minimize_GD` (tap_machine.py
lines 417-435). -/
def hcLoop {nv nh : ℕ} (w : Fin nv → Fin nh → ℝ) (a : Fin nv → ℝ) (b : Fin nh → ℝ)
    (tol : ℝ) : ℕ → GDState nv nh → GDState nv nh
  | 0, s => s
  | fuel + 1, s =>
    match hcStep w a b tol s with
    | (s', true) => hcLoop w a b tol fuel s'
    | (s', false) => s'

/-- `heat_capacity(seed, init_lr, tol, max_iters)` (tap_machine.py lines 382-448)
for an explicitly supplied seed: runs `minimize_GD` on `grad_beta_beta_TAP3` and
returns the negation of the minimized value. -/
def heat_capacity {nv nh : ℕ} (w : Fin nv → Fin nh → ℝ) (a : Fin nv → ℝ)
    (b : Fin nh → ℝ) (seed : Mag nv nh) (init_lr tol : ℝ) (max_iters : ℕ) : ℝ :=
  -(hcLoop w a b tol max_iters ⟨seed, grad_beta_beta_TAP3 w a b seed, init_lr⟩).gam

/- Concrete one-visible/one-hidden fixtures used by the concrete-input theorems
   below. -/

/-- The zero 1x1 weight matrix. -/
def w_zero : Fin 1 → Fin 1 → ℝ := fun _ _ => 0

/-- The zero bias on one unit. -/
def bias_zero : Fin 1 → ℝ := fun _ => 0

/-- The constant-one bias on one unit. -/
def bias_one : Fin 1 → ℝ := fun _ => 1

/-- The constant `-1e8` bias on one unit. -/
def bias_neg : Fin 1 → ℝ := fun _ => -(1e8)

/-- The visible bias `log((1 - 1e-7)/1e-7)` that zeroes the mean-field visible
gradient at `v = 1 - 1e-7`. -/
def bias_boundary : Fin 1 → ℝ := fun _ => Real.log ((1 - 1e-7) / 1e-7)

/-- The hidden bias `0.5 - log 3` that sends `h = 0.25` to `0.75` in one unit
mean-field step. -/
def bias_half_log3 : Fin 1 → ℝ := fun _ => 0.5 - Real.log 3

/-- The visible bias `2 - log 3` that makes the first mean-field step from
`v = 0.25` land exactly on `0.75` with learning rate `0.25`. -/
def bias_two_log3 : Fin 1 → ℝ := fun _ => 2 - Real.log 3

/-- The uniform magnetization `(0.5, 0.5)`. -/
def mag_half : Mag 1 1 := ⟨fun _ => 0.5, fun _ => 0.5⟩

/-- A seed with the visible component at `1 - 1e-7`, inside `(0,1)` but past the
clip bound `1 - 1e-6`. -/
def mag_boundary : Mag 1 1 := ⟨fun _ => 1 - 1e-7, fun _ => 0.25⟩

/-- The magnetization `(0.25, 0.5)`. -/
def mag_quarter : Mag 1 1 := ⟨fun _ => 0.25, fun _ => 0.5⟩

/-- The constant-zero functional on 1x1 magnetizations. -/
def gamma_zero : Mag 1 1 → ℝ := fun _ => 0

/-- The zero visible gradient on 1x1 magnetizations. -/
def gradv_zero : Mag 1 1 → Fin 1 → ℝ := fun _ _ => 0

/-- The zero hidden gradient on 1x1 magnetizations. -/
def gradh_zero : Mag 1 1 → Fin 1 → ℝ := fun _ _ => 0

/-- A loop state at `(mag_half, 0, 1)`. -/
def state_half : GDState 1 1 := ⟨mag_half, 0, 1⟩

/- ------------------------------------------------------------------ -/
/- Helper lemmas on the descent loop                                   -/
/- ------------------------------------------------------------------ -/

/-- Unfolding equation of the loop at a successor fuel value. -/
theorem gdLoop_succ {nv nh : ℕ} (gamma : Mag nv nh → ℝ) (grad_v : Mag nv nh → Fin nv → ℝ)
    (grad_h : Mag nv nh → Fin nh → ℝ) (tol : ℝ) (fuel : ℕ) (s : GDState nv nh) :
    gdLoop gamma grad_v grad_h tol (fuel + 1) s =
      (match gdStep gamma grad_v grad_h tol s with
       | (s', true) => gdLoop gamma grad_v grad_h tol fuel s'
       | (s', false) => s') := rfl

/-- Each loop iteration preserves the invariant that `gam` is the selected
functional evaluated at the current magnetization. -/
theorem gdStep_inv {nv nh : ℕ} (gamma : Mag nv nh → ℝ) (grad_v : Mag nv nh → Fin nv → ℝ)
    (grad_h : Mag nv nh → Fin nh → ℝ) (tol : ℝ) (s : GDState nv nh)
    (hs : s.gam = gamma s.m) :
    (gdStep gamma grad_v grad_h tol s).1.gam =
      gamma (gdStep gamma grad_v grad_h tol s).1.m := by
  unfold gdStep
  split
  · split <;> exact hs
  · split
    · exact hs
    · rfl

/-- The loop maintains `gam = gamma m` from any invariant-satisfying state. -/
theorem gdLoop_inv {nv nh : ℕ} (gamma : Mag nv nh → ℝ) (grad_v : Mag nv nh → Fin nv → ℝ)
    (grad_h : Mag nv nh → Fin nh → ℝ) (tol : ℝ) :
    ∀ (fuel : ℕ) (s : GDState nv nh), s.gam = gamma s.m →
      (gdLoop gamma grad_v grad_h tol fuel s).gam =
        gamma (gdLoop gamma grad_v grad_h tol fuel s).m
  | 0, _, hs => hs
  | fuel + 1, s, hs => by
    have hstep := gdStep_inv gamma grad_v grad_h tol s hs
    rw [gdLoop]
    rcases h : gdStep gamma grad_v grad_h tol s with ⟨s', b⟩
    rw [h] at hstep
    cases b
    · exact hstep
    · exact gdLoop_inv gamma grad_v grad_h tol fuel s' hstep

/-- The pair returned by a full run is self-consistent: the scalar is the
functional at the returned magnetization. -/
theorem gamma_GD_run_inv {nv nh : ℕ} (gamma : Mag nv nh → ℝ)
    (grad_v : Mag nv nh → Fin nv → ℝ) (grad_h : Mag nv nh → Fin nh → ℝ)
    (m : Mag nv nh) (init_lr tol : ℝ) (max_iters : ℕ) :
    (gamma_GD_run gamma grad_v grad_h m init_lr tol max_iters).2 =
      gamma (gamma_GD_run gamma grad_v grad_h m init_lr tol max_iters).1 :=
  gdLoop_inv gamma grad_v grad_h tol max_iters ⟨m, gamma m, init_lr⟩ rfl

/-- Every component of a clipped vector lies between the clip bounds. -/
theorem clip_mem {n : ℕ} (x : Fin n → ℝ) (lo hi : ℝ) (hlohi : lo ≤ hi) (i : Fin n) :
    lo ≤ clip x lo hi i ∧ clip x lo hi i ≤ hi :=
  ⟨le_min (le_max_right _ _) hlohi, min_le_right _ _⟩

/-- Case analysis of one loop iteration: either the state's pair `(m, gam)` is kept
(with the learning rate kept or halved), or the provisional pair is adopted, in
which case the new scalar improves on the old one by at least `tol` and the
learning rate is kept. -/
theorem gdStep_cases {nv nh : ℕ} (gamma : Mag nv nh → ℝ)
    (grad_v : Mag nv nh → Fin nv → ℝ) (grad_h : Mag nv nh → Fin nh → ℝ)
    (tol : ℝ) (s : GDState nv nh) :
    ((gdStep gamma grad_v grad_h tol s).1.m = s.m ∧
     (gdStep gamma grad_v grad_h tol s).1.gam = s.gam ∧
     ((gdStep gamma grad_v grad_h tol s).1.lr = s.lr ∨
      (gdStep gamma grad_v grad_h tol s).1.lr = s.lr * 0.5)) ∨
    ((gdStep gamma grad_v grad_h tol s).1.m = provisional grad_v grad_h s ∧
     (gdStep gamma grad_v grad_h tol s).1.gam ≤ s.gam - tol ∧
     (gdStep gamma grad_v grad_h tol s).1.lr = s.lr) := by
  unfold gdStep
  split
  · split
    · exact Or.inl ⟨rfl, rfl, Or.inr rfl⟩
    · exact Or.inl ⟨rfl, rfl, Or.inr rfl⟩
  · rename_i hasc
    split
    · exact Or.inl ⟨rfl, rfl, Or.inl rfl⟩
    · rename_i htol
      refine Or.inr ⟨rfl, ?_, rfl⟩
      have h1 : tol ≤ s.gam - gamma (provisional grad_v grad_h s) := le_of_not_lt htol
      simp only
      linarith

/-- Over a whole run with a nonnegative tolerance the tracked scalar never
increases. -/
theorem gdLoop_gam_le {nv nh : ℕ} (gamma : Mag nv nh → ℝ)
    (grad_v : Mag nv nh → Fin nv → ℝ) (grad_h : Mag nv nh → Fin nh → ℝ)
    (tol : ℝ) (htol : 0 ≤ tol) :
    ∀ (fuel : ℕ) (s : GDState nv nh),
      (gdLoop gamma grad_v grad_h tol fuel s).gam ≤ s.gam
  | 0, _ => le_refl _
  | fuel + 1, s => by
    have hcases := gdStep_cases gamma grad_v grad_h tol s
    have hle : (gdStep gamma grad_v grad_h tol s).1.gam ≤ s.gam := by
      rcases hcases with ⟨_, hg, _⟩ | ⟨_, hg, _⟩
      · exact le_of_eq hg
      · linarith
    rw [gdLoop]
    rcases h : gdStep gamma grad_v grad_h tol s with ⟨s', b⟩
    rw [h] at hle
    cases b
    · exact hle
    · exact le_trans (gdLoop_gam_le gamma grad_v grad_h tol htol fuel s') hle

/- ------------------------------------------------------------------ -/
/- Claim theorems                                                      -/
/- ------------------------------------------------------------------ -/

/-- C2: with expansion order 3, the minimizer computes the provisional step from the
order-3 gradients `grad_v_gamma_TAP3` / `grad_h_gamma_TAP3` while the
accept/halve/converge comparison evaluates the order-1 functional `gamma_MF`, and
consequently the scalar returned for `terms = 3` is `gamma_MF` evaluated at the
returned magnetization. -/
theorem C2_terms3_steps_TAP3_compares_gamma_MF {nv nh : ℕ}
    (w : Fin nv → Fin nh → ℝ) (a : Fin nv → ℝ) (b : Fin nh → ℝ) (m : Mag nv nh)
    (init_lr tol : ℝ) (max_iters : ℕ) :
    minimize_gamma_GD w a b m init_lr tol max_iters 3 =
      some (gamma_GD_run (gamma_MF w a b) (fun m' => grad_v_gamma_TAP3 m' w a)
        (fun m' => grad_h_gamma_TAP3 m' w b) m init_lr tol max_iters) ∧
    (gamma_GD_run (gamma_MF w a b) (fun m' => grad_v_gamma_TAP3 m' w a)
        (fun m' => grad_h_gamma_TAP3 m' w b) m init_lr tol max_iters).2 =
      gamma_MF w a b (gamma_GD_run (gamma_MF w a b) (fun m' => grad_v_gamma_TAP3 m' w a)
        (fun m' => grad_h_gamma_TAP3 m' w b) m init_lr tol max_iters).1 :=
  ⟨rfl, gamma_GD_run_inv _ _ _ _ _ _ _⟩

/-- C10: for every expansion order in {1,2,3} the pair returned by
`gibbs_free_energy` is self-consistent: the scalar equals the selected functional
(`gamma_MF` for orders 1 and 3, `gamma_TAP2` for order 2) evaluated at the
returned magnetization, on every exit path of the descent loop. -/
theorem C10_returned_pair_self_consistent {nv nh : ℕ}
    (w : Fin nv → Fin nh → ℝ) (a : Fin nv → ℝ) (b : Fin nh → ℝ) (seed : Mag nv nh)
    (init_lr tol : ℝ) (max_iters : ℕ) :
    (∃ r, gibbs_free_energy w a b seed init_lr tol max_iters 1 = Except.ok r ∧
      r.2 = gamma_MF w a b r.1) ∧
    (∃ r, gibbs_free_energy w a b seed init_lr tol max_iters 2 = Except.ok r ∧
      r.2 = gamma_TAP2 w a b r.1) ∧
    (∃ r, gibbs_free_energy w a b seed init_lr tol max_iters 3 = Except.ok r ∧
      r.2 = gamma_MF w a b r.1) := by
  refine ⟨⟨gamma_GD_run (gamma_MF w a b) (fun m' => grad_v_gamma_MF m' w a)
        (fun m' => grad_h_gamma_MF m' w b) seed init_lr tol max_iters, rfl,
      gamma_GD_run_inv (gamma_MF w a b) _ _ seed init_lr tol max_iters⟩,
    ⟨gamma_GD_run (gamma_TAP2 w a b) (fun m' => grad_v_gamma_TAP2 m' w a)
        (fun m' => grad_h_gamma_TAP2 m' w b) seed init_lr tol max_iters, rfl,
      gamma_GD_run_inv (gamma_TAP2 w a b) _ _ seed init_lr tol max_iters⟩,
    ⟨gamma_GD_run (gamma_MF w a b) (fun m' => grad_v_gamma_TAP3 m' w a)
        (fun m' => grad_h_gamma_TAP3 m' w b) seed init_lr tol max_iters, rfl,
      gamma_GD_run_inv (gamma_MF w a b) _ _ seed init_lr tol max_iters⟩⟩

/-- C7: `TAP_rbm` construction raises the configuration `ValueError` exactly when
`terms` is not one of 1, 2, 3, and `gibbs_free_energy` raises the same error
exactly when its `terms` argument is not one of 1, 2, 3 (it is a pure guard,
evaluated before any minimization); a valid order always yields a result. -/
theorem C7_config_error_iff_invalid_terms {nv nh : ℕ}
    (w : Fin nv → Fin nh → ℝ) (a : Fin nv → ℝ) (b : Fin nh → ℝ) (seed : Mag nv nh)
    (init_lr tol init_lr' tol' : ℝ) (max_iters max_iters' : ℕ)
    (pool : List (Mag nv nh)) (terms : ℕ) :
    ((∃ e, TAP_rbm.make w a b terms init_lr' tol' max_iters' pool = Except.error e) ↔
      ¬(terms = 1 ∨ terms = 2 ∨ terms = 3)) ∧
    ((∃ e, gibbs_free_energy w a b seed init_lr tol max_iters terms = Except.error e) ↔
      ¬(terms = 1 ∨ terms = 2 ∨ terms = 3)) := by
  by_cases hv : terms = 1 ∨ terms = 2 ∨ terms = 3
  · have hguard : ¬(terms ≠ 1 ∧ terms ≠ 2 ∧ terms ≠ 3) := by tauto
    constructor
    · simp only [TAP_rbm.make, if_neg hguard]
      constructor
      · rintro ⟨e, he⟩
        exact absurd he (by simp)
      · intro h
        exact absurd hv h
    · constructor
      · rintro ⟨e, he⟩
        rcases hv with h1 | h2 | h3
        · subst h1
          simp [gibbs_free_energy, minimize_gamma_GD, select_gamma] at he
        · subst h2
          simp [gibbs_free_energy, minimize_gamma_GD, select_gamma] at he
        · subst h3
          simp [gibbs_free_energy, minimize_gamma_GD, select_gamma] at he
      · intro h
        exact absurd hv h
  · have hguard : terms ≠ 1 ∧ terms ≠ 2 ∧ terms ≠ 3 := by tauto
    constructor
    · simp only [TAP_rbm.make, if_pos hguard]
      exact ⟨fun _ => hv, fun _ => ⟨_, rfl⟩⟩
    · simp only [gibbs_free_energy, if_pos hguard]
      exact ⟨fun _ => hv, fun _ => ⟨_, rfl⟩⟩

/-- C6: in every run of the descent loop with nonnegative tolerance, each iteration
either keeps the current pair `(m, gam)` unchanged (with the learning rate kept,
or halved on the backtracking branch) or adopts a provisional pair whose scalar is
lower by at least `tol`, with the learning rate kept; hence the learning rate is
only ever halved, never increased, and over a whole run the accepted scalar never
increases. -/
theorem C6_monotone_descent_and_lr_halving {nv nh : ℕ} (gamma : Mag nv nh → ℝ)
    (grad_v : Mag nv nh → Fin nv → ℝ) (grad_h : Mag nv nh → Fin nh → ℝ)
    (tol : ℝ) (s : GDState nv nh) (fuel : ℕ) (htol : 0 ≤ tol) :
    (((gdStep gamma grad_v grad_h tol s).1.m = s.m ∧
      (gdStep gamma grad_v grad_h tol s).1.gam = s.gam ∧
      ((gdStep gamma grad_v grad_h tol s).1.lr = s.lr ∨
       (gdStep gamma grad_v grad_h tol s).1.lr = s.lr * 0.5)) ∨
     ((gdStep gamma grad_v grad_h tol s).1.gam ≤ s.gam - tol ∧
      (gdStep gamma grad_v grad_h tol s).1.lr = s.lr)) ∧
    (0 ≤ s.lr → (gdStep gamma grad_v grad_h tol s).1.lr ≤ s.lr) ∧
    (gdLoop gamma grad_v grad_h tol fuel s).gam ≤ s.gam := by
  refine ⟨?_, ?_, gdLoop_gam_le gamma grad_v grad_h tol htol fuel s⟩
  · rcases gdStep_cases gamma grad_v grad_h tol s with ⟨hm, hg, hlr⟩ | ⟨_, hg, hlr⟩
    · exact Or.inl ⟨hm, hg, hlr⟩
    · exact Or.inr ⟨hg, hlr⟩
  · intro hlr0
    rcases gdStep_cases gamma grad_v grad_h tol s with ⟨_, _, hlr | hlr⟩ | ⟨_, _, hlr⟩
    · exact le_of_eq hlr
    · rw [hlr]; nlinarith
    · exact le_of_eq hlr

/-- C6 witness: the per-iteration and whole-run monotonicity facts instantiated at a
concrete one-unit model with the constant-zero functional, zero gradients, unit
tolerance and unit learning rate. -/
theorem C6_monotone_descent_and_lr_halving_witness :
    (((gdStep gamma_zero gradv_zero gradh_zero 1 state_half).1.m = state_half.m ∧
      (gdStep gamma_zero gradv_zero gradh_zero 1 state_half).1.gam = state_half.gam ∧
      ((gdStep gamma_zero gradv_zero gradh_zero 1 state_half).1.lr = state_half.lr ∨
       (gdStep gamma_zero gradv_zero gradh_zero 1 state_half).1.lr = state_half.lr * 0.5)) ∨
     ((gdStep gamma_zero gradv_zero gradh_zero 1 state_half).1.gam ≤ state_half.gam - 1 ∧
      (gdStep gamma_zero gradv_zero gradh_zero 1 state_half).1.lr = state_half.lr)) ∧
    ((0 : ℝ) ≤ state_half.lr →
      (gdStep gamma_zero gradv_zero gradh_zero 1 state_half).1.lr ≤ state_half.lr) ∧
    (gdLoop gamma_zero gradv_zero gradh_zero 1 3 state_half).gam ≤ state_half.gam :=
  C6_monotone_descent_and_lr_halving gamma_zero gradv_zero gradh_zero 1 state_half 3
    zero_le_one

/-- C8: `heat_capacity` runs exactly the same backtracking descent machinery as the
free-energy minimizer — its transcribed loop `hcLoop` coincides with `gdLoop`
instantiated at the order-3 beta-beta functional `grad_beta_beta_TAP3` and its
gradients — and it returns the negation of the scalar attained by that loop. -/
theorem C8_heat_capacity_same_machinery {nv nh : ℕ} (w : Fin nv → Fin nh → ℝ)
    (a : Fin nv → ℝ) (b : Fin nh → ℝ) (seed : Mag nv nh) (init_lr tol : ℝ)
    (max_iters : ℕ) :
    (∀ (fuel : ℕ) (s : GDState nv nh),
      hcLoop w a b tol fuel s =
        gdLoop (grad_beta_beta_TAP3 w a b) (fun m => hc_grad_v m w a)
          (fun m => hc_grad_h m w b) tol fuel s) ∧
    heat_capacity w a b seed init_lr tol max_iters =
      -(gdLoop (grad_beta_beta_TAP3 w a b) (fun m => hc_grad_v m w a)
          (fun m => hc_grad_h m w b) tol max_iters
          ⟨seed, grad_beta_beta_TAP3 w a b seed, init_lr⟩).gam := by
  have hstep : ∀ s : GDState nv nh,
      hcStep w a b tol s =
        gdStep (grad_beta_beta_TAP3 w a b) (fun m => hc_grad_v m w a)
          (fun m => hc_grad_h m w b) tol s := fun _ => rfl
  have hloop : ∀ (fuel : ℕ) (s : GDState nv nh),
      hcLoop w a b tol fuel s =
        gdLoop (grad_beta_beta_TAP3 w a b) (fun m => hc_grad_v m w a)
          (fun m => hc_grad_h m w b) tol fuel s := by
    intro fuel
    induction fuel with
    | zero => intro s; rfl
    | succ n ih =>
      intro s
      rw [hcLoop, gdLoop, hstep s]
      rcases gdStep (grad_beta_beta_TAP3 w a b) (fun m => hc_grad_v m w a)
          (fun m => hc_grad_h m w b) tol s with ⟨s', b'⟩
      cases b'
      · rfl
      · exact ih s'
  exact ⟨hloop, by rw [heat_capacity, hloop]⟩

/-- C3 amended: at an iteration where the decrease `gam - gam_provisional` is
non-negative but below `tol`, the loop stops but keeps the pre-step pair: it
returns `(m, gam)` from before the provisional step, discarding the clipped
provisional point rather than accepting it. -/
theorem C3_converged_exit_keeps_prestep_state {nv nh : ℕ} (gamma : Mag nv nh → ℝ)
    (grad_v : Mag nv nh → Fin nv → ℝ) (grad_h : Mag nv nh → Fin nh → ℝ)
    (tol : ℝ) (s : GDState nv nh) (fuel : ℕ)
    (h1 : ¬(s.gam - gamma (provisional grad_v grad_h s) < 0))
    (h2 : s.gam - gamma (provisional grad_v grad_h s) < tol) :
    gdStep gamma grad_v grad_h tol s = (s, false) ∧
    gdLoop gamma grad_v grad_h tol (fuel + 1) s = s := by
  have hs : gdStep gamma grad_v grad_h tol s = (s, false) := by
    unfold gdStep
    rw [if_neg h1, if_pos h2]
  refine ⟨hs, ?_⟩
  rw [gdLoop, hs]

/-- C3 amended witness: the converged-exit behavior at a concrete one-unit state
with the constant-zero functional and unit tolerance. -/
theorem C3_converged_exit_keeps_prestep_state_witness :
    gdStep gamma_zero gradv_zero gradh_zero 1 state_half = (state_half, false) ∧
    gdLoop gamma_zero gradv_zero gradh_zero 1 (2 + 1) state_half = state_half :=
  C3_converged_exit_keeps_prestep_state gamma_zero gradv_zero gradh_zero 1 state_half 2
    (by norm_num [state_half, gamma_zero]) (by norm_num [state_half, gamma_zero])

/-- C9 amended: the clipped provisional point of every iteration has all components
in `[1e-6, 1 - 1e-6]`, and after one iteration the current magnetization is either
the clipped provisional point (accepted step, hence within those bounds) or the
previous magnetization unchanged (backtracking or converged exit) — in the latter
case a seed component at `1 - 1e-7` survives outside `[1e-6, 1 - 1e-6]`. -/
theorem C9_clip_bounds_or_unchanged {nv nh : ℕ} (gamma : Mag nv nh → ℝ)
    (grad_v : Mag nv nh → Fin nv → ℝ) (grad_h : Mag nv nh → Fin nh → ℝ)
    (tol : ℝ) (s : GDState nv nh) :
    (∀ i, (1e-6 : ℝ) ≤ (provisional grad_v grad_h s).v i ∧
      (provisional grad_v grad_h s).v i ≤ 1 - 1e-6) ∧
    (∀ j, (1e-6 : ℝ) ≤ (provisional grad_v grad_h s).h j ∧
      (provisional grad_v grad_h s).h j ≤ 1 - 1e-6) ∧
    ((gdStep gamma grad_v grad_h tol s).1.m = s.m ∨
     (gdStep gamma grad_v grad_h tol s).1.m = provisional grad_v grad_h s) := by
  have hb : (1e-6 : ℝ) ≤ 1 - 1e-6 := by norm_num
  refine ⟨fun i => ?_, fun j => ?_, ?_⟩
  · exact clip_mem (fun i' => s.m.v i' - s.lr * grad_v s.m i') 1e-6 (1 - 1e-6) hb i
  · exact clip_mem (fun j' => s.m.h j' - s.lr * grad_h s.m j') 1e-6 (1 - 1e-6) hb j
  rcases gdStep_cases gamma grad_v grad_h tol s with ⟨hm, _, _⟩ | ⟨hm, _, _⟩
  · exact Or.inl hm
  · exact Or.inr hm

/-- With a zero weight matrix all coupling corrections vanish, so the order-2 and
order-3 functionals agree for every magnetization and all biases; `gamma_MF`,
however, differs from them by an extra `-dot(a, m.v)` (its doubled visible-bias
term). -/
theorem gamma_zero_weight_relations {nv nh : ℕ} (w : Fin nv → Fin nh → ℝ)
    (hw : ∀ i j, w i j = 0) (a : Fin nv → ℝ) (b : Fin nh → ℝ) (m : Mag nv nh) :
    gamma_TAP2 w a b m = gamma_TAP3 w a b m ∧
    gamma_MF w a b m = gamma_TAP2 w a b m - dotv a m.v := by
  have hcoup : dotv (fun i => m.v i - m.v i ^ 2)
      (mvdot (fun i j => (w i j) ^ 2) (fun j => m.h j - m.h j ^ 2)) = 0 := by
    unfold dotv mvdot
    apply Finset.sum_eq_zero
    intro i _
    have hrow : (∑ j, (w i j) ^ 2 * (m.h j - m.h j ^ 2)) = 0 :=
      Finset.sum_eq_zero (fun j _ => by rw [hw i j]; ring)
    rw [hrow, mul_zero]
  have hcube : (∑ i, ∑ j, ((0.5 - m.h j) * (m.h j - m.h j ^ 2)) *
      (((0.5 - m.v i) * (m.v i - m.v i ^ 2)) * ((w i j) ^ 2 * w i j))) = 0 :=
    Finset.sum_eq_zero (fun i _ => Finset.sum_eq_zero (fun j _ => by rw [hw i j]; ring))
  constructor
  · unfold gamma_TAP2 gamma_TAP3
    rw [hcoup, hcube]
    ring
  · unfold gamma_MF gamma_TAP2
    rw [hcoup]
    ring

/-- C4: at the zero weight matrix, `gamma_TAP2` and `gamma_TAP3` agree, but
`gamma_MF` does not: on a one-visible/one-hidden model with `a = 1`, `b = 0` and
magnetization `(0.5, 0.5)`, `gamma_MF` is lower by the doubled bias term
`dot(a, m.v) = 0.5`, so the three orders do not return identical values. -/
theorem C4_gamma_MF_differs_at_zero_weights :
    gamma_TAP2 w_zero bias_one bias_zero mag_half =
      gamma_TAP3 w_zero bias_one bias_zero mag_half ∧
    gamma_MF w_zero bias_one bias_zero mag_half + 0.5 =
      gamma_TAP2 w_zero bias_one bias_zero mag_half ∧
    gamma_MF w_zero bias_one bias_zero mag_half ≠
      gamma_TAP2 w_zero bias_one bias_zero mag_half := by
  obtain ⟨h23, hMF⟩ := gamma_zero_weight_relations w_zero
    (fun _ _ => rfl) bias_one bias_zero mag_half
  have hdot : dotv bias_one mag_half.v = 0.5 := by
    simp [dotv, bias_one, mag_half, Fin.sum_univ_one]
  refine ⟨h23, by rw [hMF, hdot]; ring, ?_⟩
  rw [hMF, hdot]
  intro hcontra
  have : (0.5 : ℝ) = 0 := by linarith
  norm_num at this

/-- If `select_gamma` dispatches, the minimizer is a plain descent run of the
selected triple. -/
theorem minimize_of_select {nv nh : ℕ} {w : Fin nv → Fin nh → ℝ} {a : Fin nv → ℝ}
    {b : Fin nh → ℝ} {terms : ℕ} {g : Mag nv nh → ℝ} {gv : Mag nv nh → Fin nv → ℝ}
    {gh : Mag nv nh → Fin nh → ℝ}
    (hsel : select_gamma w a b terms = some (g, gv, gh)) (s : Mag nv nh)
    (init_lr tol : ℝ) (max_iters : ℕ) :
    minimize_gamma_GD w a b s init_lr tol max_iters terms =
      some (gamma_GD_run g gv gh s init_lr tol max_iters) := by
  unfold minimize_gamma_GD
  rw [hsel]
  rfl

/-- Full characterization of the persistent-pool loop, generalized over the running
accumulator: the new pool is the slotwise minimizer image of the old pool, and the
final `(m, best)` either still carries the incoming accumulator (when no slot beat
it) or marks a slot whose minimized value strictly beat the incoming bound and is
minimal over the whole pool. -/
theorem gradient_pool_go {nv nh : ℕ} {w : Fin nv → Fin nh → ℝ} {a : Fin nv → ℝ}
    {b : Fin nh → ℝ} {terms : ℕ} {g : Mag nv nh → ℝ} {gv : Mag nv nh → Fin nv → ℝ}
    {gh : Mag nv nh → Fin nh → ℝ}
    (hsel : select_gamma w a b terms = some (g, gv, gh)) (init_lr tol : ℝ)
    (max_iters : ℕ) :
    ∀ (pool : List (Mag nv nh)) (macc : Option (Mag nv nh)) (bacc : ℝ),
      ∃ mfin bfin,
        gradient_pool w a b init_lr tol max_iters terms pool macc bacc =
          some (pool.map (fun s => (gamma_GD_run g gv gh s init_lr tol max_iters).1),
            mfin, bfin) ∧
        ((mfin = macc ∧ bfin = bacc ∧
          ∀ s ∈ pool, bacc ≤ (gamma_GD_run g gv gh s init_lr tol max_iters).2) ∨
         (∃ i : Fin pool.length,
           mfin = some (gamma_GD_run g gv gh (pool.get i) init_lr tol max_iters).1 ∧
           bfin = (gamma_GD_run g gv gh (pool.get i) init_lr tol max_iters).2 ∧
           (gamma_GD_run g gv gh (pool.get i) init_lr tol max_iters).2 < bacc ∧
           ∀ s ∈ pool, (gamma_GD_run g gv gh (pool.get i) init_lr tol max_iters).2 ≤
             (gamma_GD_run g gv gh s init_lr tol max_iters).2))
  | [], macc, bacc => ⟨macc, bacc, rfl, Or.inl ⟨rfl, rfl, by simp⟩⟩
  | shead :: rest, macc, bacc => by
    obtain ⟨mfin, bfin, heq, hdisj⟩ := gradient_pool_go hsel init_lr tol max_iters rest
      (if (gamma_GD_run g gv gh shead init_lr tol max_iters).2 < bacc then
        some (gamma_GD_run g gv gh shead init_lr tol max_iters).1 else macc)
      (if (gamma_GD_run g gv gh shead init_lr tol max_iters).2 < bacc then
        (gamma_GD_run g gv gh shead init_lr tol max_iters).2 else bacc)
    refine ⟨mfin, bfin, ?_, ?_⟩
    · rw [gradient_pool, minimize_of_select hsel]
      dsimp only
      rw [heq]
      dsimp only
      rw [List.map_cons]
    · by_cases hcase : (gamma_GD_run g gv gh shead init_lr tol max_iters).2 < bacc
      · rw [if_pos hcase, if_pos hcase] at hdisj
        rcases hdisj with ⟨hm, hb, hall⟩ | ⟨i, hm, hb, hlt, hall⟩
        · refine Or.inr ⟨⟨0, by simp⟩, ?_, ?_, hcase, ?_⟩
          · simpa using hm
          · simpa using hb
          · intro s hs
            rcases List.mem_cons.mp hs with hs | hs
            · subst hs; simp
            · simpa using hall s hs
        · refine Or.inr ⟨⟨i.1 + 1, by simp [i.2]⟩, ?_, ?_, ?_, ?_⟩
          · simpa [List.get] using hm
          · simpa [List.get] using hb
          · simp only [List.get]
            calc (gamma_GD_run g gv gh (rest.get i) init_lr tol max_iters).2 <
                (gamma_GD_run g gv gh shead init_lr tol max_iters).2 := hlt
              _ < bacc := hcase
          · intro s hs
            rcases List.mem_cons.mp hs with hs | hs
            · subst hs
              simpa [List.get] using le_of_lt hlt
            · simpa [List.get] using hall s hs
      · rw [if_neg hcase, if_neg hcase] at hdisj
        rcases hdisj with ⟨hm, hb, hall⟩ | ⟨i, hm, hb, hlt, hall⟩
        · refine Or.inl ⟨hm, hb, ?_⟩
          intro s hs
          rcases List.mem_cons.mp hs with hs | hs
          · subst hs; exact le_of_not_lt hcase
          · exact hall s hs
        · refine Or.inr ⟨⟨i.1 + 1, by simp [i.2]⟩, ?_, ?_, ?_, ?_⟩
          · simpa [List.get] using hm
          · simpa [List.get] using hb
          · simpa [List.get] using hlt
          · intro s hs
            rcases List.mem_cons.mp hs with hs | hs
            · subst hs
              simp only [List.get]
              exact le_trans (le_of_lt hlt) (le_of_not_lt hcase)
            · simpa [List.get] using hall s hs

/-- C5 amended: every call of the pool loop of `gradient` overwrites all slots with
the minimizer's result seeded from that slot's previous contents; and provided at
least one slot's minimized value beats the `1e7` sentinel the loop starts from,
the selected magnetization is one of the new slots, with minimal minimized value
over the whole pool.  (When every minimized value is at least `1e7` nothing is
selected — see the counterexample.) -/
theorem C5_pool_overwrite_and_best_selection {nv nh : ℕ} (w : Fin nv → Fin nh → ℝ)
    (a : Fin nv → ℝ) (b : Fin nh → ℝ) (init_lr tol : ℝ) (max_iters terms : ℕ)
    (g : Mag nv nh → ℝ) (gv : Mag nv nh → Fin nv → ℝ) (gh : Mag nv nh → Fin nh → ℝ)
    (hsel : select_gamma w a b terms = some (g, gv, gh)) (pool : List (Mag nv nh)) :
    ∃ mfin bfin,
      gradient_pool w a b init_lr tol max_iters terms pool none 1e7 =
        some (pool.map (fun s => (gamma_GD_run g gv gh s init_lr tol max_iters).1),
          mfin, bfin) ∧
      ((∃ s ∈ pool, (gamma_GD_run g gv gh s init_lr tol max_iters).2 < 1e7) →
        ∃ i : Fin pool.length,
          mfin = some (gamma_GD_run g gv gh (pool.get i) init_lr tol max_iters).1 ∧
          ∀ s ∈ pool, (gamma_GD_run g gv gh (pool.get i) init_lr tol max_iters).2 ≤
            (gamma_GD_run g gv gh s init_lr tol max_iters).2) := by
  obtain ⟨mfin, bfin, heq, hdisj⟩ := gradient_pool_go hsel init_lr tol max_iters pool none 1e7
  refine ⟨mfin, bfin, heq, ?_⟩
  rintro ⟨s, hs, hslt⟩
  rcases hdisj with ⟨_, _, hall⟩ | ⟨i, hm, _, _, hall⟩
  · exact absurd (hall s hs) (not_le_of_lt hslt)
  · exact ⟨i, hm, hall⟩

/-- C5 witness: the amended pool behavior at a concrete one-slot pool on a
one-unit model with zero parameters and expansion order 1. -/
theorem C5_pool_overwrite_and_best_selection_witness :
    ∃ mfin bfin,
      gradient_pool w_zero bias_zero bias_zero 0.1 1e-7 0 1 [mag_half] none 1e7 =
        some ([mag_half].map
          (fun s => (gamma_GD_run (gamma_MF w_zero bias_zero bias_zero)
            (fun m' => grad_v_gamma_MF m' w_zero bias_zero)
            (fun m' => grad_h_gamma_MF m' w_zero bias_zero) s 0.1 1e-7 0).1),
          mfin, bfin) ∧
      ((∃ s ∈ [mag_half],
          (gamma_GD_run (gamma_MF w_zero bias_zero bias_zero)
            (fun m' => grad_v_gamma_MF m' w_zero bias_zero)
            (fun m' => grad_h_gamma_MF m' w_zero bias_zero) s 0.1 1e-7 0).2 < 1e7) →
        ∃ i : Fin ([mag_half]).length,
          mfin = some ((gamma_GD_run (gamma_MF w_zero bias_zero bias_zero)
            (fun m' => grad_v_gamma_MF m' w_zero bias_zero)
            (fun m' => grad_h_gamma_MF m' w_zero bias_zero)
            ([mag_half].get i) 0.1 1e-7 0).1) ∧
          ∀ s ∈ [mag_half],
            (gamma_GD_run (gamma_MF w_zero bias_zero bias_zero)
              (fun m' => grad_v_gamma_MF m' w_zero bias_zero)
              (fun m' => grad_h_gamma_MF m' w_zero bias_zero)
              ([mag_half].get i) 0.1 1e-7 0).2 ≤
            (gamma_GD_run (gamma_MF w_zero bias_zero bias_zero)
              (fun m' => grad_v_gamma_MF m' w_zero bias_zero)
              (fun m' => grad_h_gamma_MF m' w_zero bias_zero) s 0.1 1e-7 0).2) :=
  C5_pool_overwrite_and_best_selection w_zero bias_zero bias_zero
    0.1 1e-7 0 1 _ _ _ rfl [mag_half]

/-- C5 counterexample: on a one-unit model with visible bias `-1e8` and
`max_iters = 0`, the single pool slot's minimized free energy is
`1e8 - 2·log 2 ≥ 1e7`, so it never beats the `1e7` sentinel: the pool loop
returns `none` as the selected magnetization — no slot is selected, contradicting
the claim that the model-side magnetization is always one of the pool results (the
Python code then crashes using `None`). -/
theorem C5_counterexample_sentinel_never_beaten :
    gradient_pool w_zero bias_neg bias_zero 0.1 1e-7 0 1 [mag_half] none 1e7 =
      some ([mag_half], none, 1e7) := by
  have hlog2 : Real.log 2 < 1 := lt_trans Real.log_two_lt_d9 (by norm_num)
  have hval : gamma_MF w_zero bias_neg bias_zero mag_half = -(2 * Real.log 2) + 1e8 := by
    unfold gamma_MF tsum dotv mvdot w_zero bias_neg bias_zero mag_half
    simp only [Fin.sum_univ_one]
    rw [show ((1 : ℝ) - 0.5) = 0.5 by norm_num, show (0.5 : ℝ) = 2⁻¹ by norm_num,
      Real.log_inv]
    ring
  have hnot : ¬(gamma_MF w_zero bias_neg bias_zero mag_half < 1e7) := by
    rw [hval]
    push_neg
    nlinarith
  have hsel : select_gamma w_zero bias_neg bias_zero 1 =
      some (gamma_MF w_zero bias_neg bias_zero,
        fun m' => grad_v_gamma_MF m' w_zero bias_neg,
        fun m' => grad_h_gamma_MF m' w_zero bias_zero) := rfl
  have hrun := minimize_of_select hsel mag_half 0.1 1e-7 0
  have hrun0 : gamma_GD_run (gamma_MF w_zero bias_neg bias_zero)
      (fun m' => grad_v_gamma_MF m' w_zero bias_neg)
      (fun m' => grad_h_gamma_MF m' w_zero bias_zero) mag_half 0.1 1e-7 0 =
      (mag_half, gamma_MF w_zero bias_neg bias_zero mag_half) := rfl
  rw [hrun0] at hrun
  rw [gradient_pool, hrun]
  dsimp only
  simp only [if_neg hnot]
  rw [gradient_pool]

/-- Derivative of the binary-entropy summand `t log t + (1-t) log(1-t)` at any
point strictly inside `(0, 1)`. -/
theorem hasDerivAt_ent (x : ℝ) (hx0 : 0 < x) (hx1 : x < 1) :
    HasDerivAt (fun t : ℝ => t * Real.log t + (1 - t) * Real.log (1 - t))
      (Real.log x - Real.log (1 - x)) x := by
  have hx' : x ≠ 0 := ne_of_gt hx0
  have hx1' : (1 : ℝ) - x ≠ 0 := by linarith
  have h1 : HasDerivAt (fun t : ℝ => t * Real.log t) (Real.log x + 1) x := by
    have h := (hasDerivAt_id x).mul (Real.hasDerivAt_log hx')
    have he : 1 * Real.log x + id x * x⁻¹ = Real.log x + 1 := by
      field_simp
    rwa [he] at h
  have hinner : HasDerivAt (fun t : ℝ => 1 - t) (-1) x := by
    simpa using (hasDerivAt_const x (1 : ℝ)).sub (hasDerivAt_id x)
  have houter : HasDerivAt (fun s : ℝ => s * Real.log s) (Real.log (1 - x) + 1) (1 - x) := by
    have h := (hasDerivAt_id (1 - x)).mul (Real.hasDerivAt_log hx1')
    have he : 1 * Real.log (1 - x) + id (1 - x) * (1 - x)⁻¹ = Real.log (1 - x) + 1 := by
      field_simp
    rwa [he] at h
  have h2 : HasDerivAt (fun t : ℝ => (1 - t) * Real.log (1 - t))
      ((Real.log (1 - x) + 1) * (-1)) x := houter.comp x hinner
  have h := h1.add h2
  have he : Real.log x + 1 + (Real.log (1 - x) + 1) * (-1) =
      Real.log x - Real.log (1 - x) := by
    ring
  rwa [he] at h

/-- C1: on a one-unit model with `w = 0`, `a = 1`, `b = 0` and magnetization
`(0.5, 0.5)`, the partial derivative of `gamma_MF` with respect to the visible
magnetization is `-2` (the bias enters `gamma_MF` twice), while the closed-form
gradient `grad_v_gamma_MF` returns `-1`: the order-1 gradient is not the
derivative of the order-1 scalar functional, so the code's `gamma_MF` contradicts
its own paired gradient. -/
theorem C1_grad_v_gamma_MF_not_partial_derivative :
    HasDerivAt (fun t : ℝ => gamma_MF w_zero bias_one bias_zero
      ⟨Function.update mag_half.v 0 t, mag_half.h⟩) (-2) 0.5 ∧
    grad_v_gamma_MF mag_half w_zero bias_one 0 = -1 ∧
    ¬ HasDerivAt (fun t : ℝ => gamma_MF w_zero bias_one bias_zero
      ⟨Function.update mag_half.v 0 t, mag_half.h⟩)
      (grad_v_gamma_MF mag_half w_zero bias_one 0) 0.5 := by
  have hgrad : grad_v_gamma_MF mag_half w_zero bias_one 0 = -1 := by
    unfold grad_v_gamma_MF divide mvdot w_zero bias_one mag_half
    norm_num [Fin.sum_univ_one]
  have hFeq : (fun t : ℝ => gamma_MF w_zero bias_one bias_zero
      ⟨Function.update mag_half.v 0 t, mag_half.h⟩) =
      fun t : ℝ => (t * Real.log t + (1 - t) * Real.log (1 - t)) +
        (Real.log 0.5 - 2 * t) := by
    funext t
    unfold gamma_MF tsum dotv mvdot w_zero bias_one bias_zero mag_half
    simp only [Fin.sum_univ_one, Function.update_same]
    norm_num
    ring
  have hD : HasDerivAt (fun t : ℝ => (t * Real.log t + (1 - t) * Real.log (1 - t)) +
      (Real.log 0.5 - 2 * t)) (-2) 0.5 := by
    have hent := hasDerivAt_ent 0.5 (by norm_num) (by norm_num)
    have hlin : HasDerivAt (fun t : ℝ => Real.log 0.5 - 2 * t) (-2) 0.5 := by
      have h := (hasDerivAt_const (0.5 : ℝ) (Real.log 0.5)).sub
        ((hasDerivAt_id (0.5 : ℝ)).const_mul 2)
      have he : (0 : ℝ) - 2 * 1 = -2 := by norm_num
      rwa [he] at h
    have h := hent.add hlin
    convert h using 1
    norm_num
  refine ⟨by rw [hFeq]; exact hD, hgrad, ?_⟩
  intro hbad
  rw [hFeq] at hbad
  have huniq := hbad.unique hD
  rw [hgrad] at huniq
  norm_num at huniq

/-- Numeric fact: `1 < log 3`, since `e < 3`. -/
theorem one_lt_log_three : 1 < Real.log 3 := by
  rw [Real.lt_log_iff_exp_lt (by norm_num : (0 : ℝ) < 3)]
  exact lt_trans Real.exp_one_lt_d9 (by norm_num)

/-- Numeric fact: `log 3 < 2`, since `3 < e^2`. -/
theorem log_three_lt_two : Real.log 3 < 2 := by
  rw [Real.log_lt_iff_lt_exp (by norm_num : (0 : ℝ) < 3)]
  have h2 : Real.exp 2 = Real.exp 1 * Real.exp 1 := by
    rw [← Real.exp_add]
    norm_num
  nlinarith [Real.exp_one_gt_d9]

/-- The binary-entropy summand is nonpositive on `[0, 1]`. -/
theorem ent_nonpos (x : ℝ) (h0 : 0 ≤ x) (h1 : x ≤ 1) :
    x * Real.log x + (1 - x) * Real.log (1 - x) ≤ 0 := by
  have hl : Real.log x ≤ 0 := Real.log_nonpos h0 h1
  have hl2 : Real.log (1 - x) ≤ 0 := Real.log_nonpos (by linarith) (by linarith)
  nlinarith

/-- Lower log bound `1 - x⁻¹ ≤ log x` for positive `x`. -/
theorem one_sub_inv_le_log (x : ℝ) (hx : 0 < x) : 1 - x⁻¹ ≤ Real.log x := by
  have h := Real.log_le_sub_one_of_pos (inv_pos.mpr hx)
  rw [Real.log_inv] at h
  linarith

/-- Numeric fact: `-17 ≤ log 1e-6`. -/
theorem log_micro_ge : (-17 : ℝ) ≤ Real.log (1e-6 : ℝ) := by
  have h2 : Real.log (1e-6 : ℝ) = -Real.log (1000000 : ℝ) := by
    rw [show (1e-6 : ℝ) = ((1000000 : ℝ))⁻¹ by norm_num, Real.log_inv]
  have hm : Real.log (1000000 : ℝ) ≤ Real.log ((2 : ℝ) ^ 24) :=
    Real.log_le_log (by norm_num) (by norm_num)
  have hp : Real.log ((2 : ℝ) ^ 24) = 24 * Real.log 2 := by
    rw [Real.log_pow]
    norm_num
  have h2lt := Real.log_two_lt_d9
  rw [h2]
  nlinarith

/-- Lower bound on the entropy summand at `1 - 1e-6`. -/
theorem ent_near_one_ge :
    -(2e-5 : ℝ) ≤ (1 - 1e-6 : ℝ) * Real.log (1 - 1e-6) +
      (1 - (1 - 1e-6 : ℝ)) * Real.log (1 - (1 - 1e-6 : ℝ)) := by
  have hlog1 : 1 - ((1 : ℝ) - 1e-6)⁻¹ ≤ Real.log (1 - 1e-6 : ℝ) :=
    one_sub_inv_le_log _ (by norm_num)
  have hb1 : -(2e-6 : ℝ) ≤ 1 - ((1 : ℝ) - 1e-6)⁻¹ := by
    rw [show ((1 : ℝ) - 1e-6) = 999999 / 1000000 by norm_num]
    norm_num
  have hlog1' : Real.log (1 - 1e-6 : ℝ) ≤ 0 := Real.log_nonpos (by norm_num) (by norm_num)
  have hprod : Real.log (1 - 1e-6 : ℝ) ≤ (1 - 1e-6 : ℝ) * Real.log (1 - 1e-6) := by
    nlinarith
  have hsmall : (1 - (1 - 1e-6 : ℝ)) = (1e-6 : ℝ) := by norm_num
  rw [hsmall]
  have hmul : (1e-6 : ℝ) * (-17) ≤ (1e-6 : ℝ) * Real.log (1e-6 : ℝ) :=
    mul_le_mul_of_nonneg_left log_micro_ge (by norm_num)
  nlinarith

/-- C9 counterexample: starting the order-1 minimizer from the seed
`(1 - 1e-7, 0.25)` with `w = 0`, `a = log((1-1e-7)/1e-7)`, `b = 0.5 - log 3`,
learning rate `1` and `max_iters = 1`, the first iteration strictly increases
`gamma_MF` (the clip alone moves the visible component), so the step is rejected
(learning-rate halving) and the returned magnetization still has its visible
component at `1 - 1e-7`, which is not within `[1e-6, 1 - 1e-6]`. -/
theorem C9_counterexample_boundary_seed_survives :
    minimize_gamma_GD w_zero bias_boundary bias_half_log3 mag_boundary 1 1e-4 1 1 =
      some (mag_boundary, gamma_MF w_zero bias_boundary bias_half_log3 mag_boundary) ∧
    mag_boundary.v 0 = 1 - 1e-7 ∧ ¬(mag_boundary.v 0 ≤ 1 - 1e-6) := by
  have hgv : grad_v_gamma_MF mag_boundary w_zero bias_boundary 0 = 0 := by
    unfold grad_v_gamma_MF divide mvdot w_zero bias_boundary mag_boundary
    simp only [Fin.sum_univ_one]
    norm_num
  have hgh : grad_h_gamma_MF mag_boundary w_zero bias_half_log3 0 = -0.5 := by
    unfold grad_h_gamma_MF divide vmdot w_zero bias_half_log3 mag_boundary
    simp only [Fin.sum_univ_one]
    rw [show (0.25 : ℝ) / (1 - 0.25) = (3 : ℝ)⁻¹ by norm_num, Real.log_inv]
    ring
  have hpv : ∀ G : ℝ, (provisional (fun m' => grad_v_gamma_MF m' w_zero bias_boundary)
      (fun m' => grad_h_gamma_MF m' w_zero bias_half_log3)
      ⟨mag_boundary, G, 1⟩).v 0 = 1 - 1e-6 := by
    intro G
    show min (max (mag_boundary.v 0 - 1 * grad_v_gamma_MF mag_boundary w_zero bias_boundary 0)
      1e-6) (1 - 1e-6) = 1 - 1e-6
    rw [hgv, show mag_boundary.v 0 = 1 - 1e-7 from rfl]
    rw [max_eq_left (by norm_num), min_eq_right (by norm_num)]
  have hph : ∀ G : ℝ, (provisional (fun m' => grad_v_gamma_MF m' w_zero bias_boundary)
      (fun m' => grad_h_gamma_MF m' w_zero bias_half_log3)
      ⟨mag_boundary, G, 1⟩).h 0 = 0.75 := by
    intro G
    show min (max (mag_boundary.h 0 - 1 * grad_h_gamma_MF mag_boundary w_zero bias_half_log3 0)
      1e-6) (1 - 1e-6) = 0.75
    rw [hgh, show mag_boundary.h 0 = 0.25 from rfl]
    rw [max_eq_left (by norm_num), min_eq_left (by norm_num)]
    norm_num
  have hgm : ∀ m : Mag 1 1, gamma_MF w_zero bias_boundary bias_half_log3 m =
      (m.v 0 * Real.log (m.v 0) + (1 - m.v 0) * Real.log (1 - m.v 0)) +
      (m.h 0 * Real.log (m.h 0) + (1 - m.h 0) * Real.log (1 - m.h 0)) -
      2 * Real.log ((1 - 1e-7) / 1e-7) * m.v 0 - (0.5 - Real.log 3) * m.h 0 := by
    intro m
    unfold gamma_MF tsum dotv mvdot w_zero bias_boundary bias_half_log3
    simp only [Fin.sum_univ_one]
    ring
  have hlt : ∀ G : ℝ, gamma_MF w_zero bias_boundary bias_half_log3 mag_boundary -
      gamma_MF w_zero bias_boundary bias_half_log3
        (provisional (fun m' => grad_v_gamma_MF m' w_zero bias_boundary)
          (fun m' => grad_h_gamma_MF m' w_zero bias_half_log3)
          ⟨mag_boundary, G, 1⟩) < 0 := by
    intro G
    rw [hgm mag_boundary, hgm _, hpv G, hph G,
      show mag_boundary.v 0 = 1 - 1e-7 from rfl, show mag_boundary.h 0 = 0.25 from rfl]
    have e1 := ent_nonpos (1 - 1e-7 : ℝ) (by norm_num) (by norm_num)
    have e2 := ent_near_one_ge
    have f1 : (0 : ℝ) ≤ Real.log ((1 - 1e-7) / 1e-7) := Real.log_nonneg (by norm_num)
    have f3 := one_lt_log_three
    nlinarith [e1, e2, f1, f3]
  have hstep : gdStep (gamma_MF w_zero bias_boundary bias_half_log3)
      (fun m' => grad_v_gamma_MF m' w_zero bias_boundary)
      (fun m' => grad_h_gamma_MF m' w_zero bias_half_log3) 1e-4
      ⟨mag_boundary, gamma_MF w_zero bias_boundary bias_half_log3 mag_boundary, 1⟩ =
      (⟨mag_boundary, gamma_MF w_zero bias_boundary bias_half_log3 mag_boundary, 1 * 0.5⟩,
        true) := by
    unfold gdStep
    rw [if_pos (hlt _), if_neg (by norm_num : ¬((1 : ℝ) * 0.5 < 1e-10))]
  have h0 := gdLoop_succ (gamma_MF w_zero bias_boundary bias_half_log3)
    (fun m' => grad_v_gamma_MF m' w_zero bias_boundary)
    (fun m' => grad_h_gamma_MF m' w_zero bias_half_log3) 1e-4 0
    ⟨mag_boundary, gamma_MF w_zero bias_boundary bias_half_log3 mag_boundary, 1⟩
  rw [hstep] at h0
  have hloop : gdLoop (gamma_MF w_zero bias_boundary bias_half_log3)
      (fun m' => grad_v_gamma_MF m' w_zero bias_boundary)
      (fun m' => grad_h_gamma_MF m' w_zero bias_half_log3) 1e-4 1
      ⟨mag_boundary, gamma_MF w_zero bias_boundary bias_half_log3 mag_boundary, 1⟩ =
      ⟨mag_boundary, gamma_MF w_zero bias_boundary bias_half_log3 mag_boundary, 1 * 0.5⟩ := h0
  refine ⟨?_, rfl, by rw [show mag_boundary.v 0 = 1 - 1e-7 from rfl]; norm_num⟩
  have hsel : select_gamma w_zero bias_boundary bias_half_log3 1 =
      some (gamma_MF w_zero bias_boundary bias_half_log3,
        fun m' => grad_v_gamma_MF m' w_zero bias_boundary,
        fun m' => grad_h_gamma_MF m' w_zero bias_half_log3) := rfl
  rw [minimize_of_select hsel]
  unfold gamma_GD_run
  rw [hloop]

/-- C3 counterexample: on a one-unit model with `w = 0`, `a = 2 - log 3`, `b = 0`,
seed `(0.25, 0.5)`, learning rate `0.25` and tolerance `1000`, the first
iteration's decrease `gam - gam_provisional = 2 - log 3` lies in `[0, tol)` (the
converged case) and the clipped provisional visible component is `0.75`, yet the
minimizer returns the pre-step magnetization with visible component `0.25`: the
provisional point is discarded, not accepted. -/
theorem C3_counterexample_converged_exit_discards_provisional :
    minimize_gamma_GD w_zero bias_two_log3 bias_zero mag_quarter 0.25 1000 1 1 =
        some (mag_quarter, gamma_MF w_zero bias_two_log3 bias_zero mag_quarter) ∧
      0 ≤ gamma_MF w_zero bias_two_log3 bias_zero mag_quarter -
        gamma_MF w_zero bias_two_log3 bias_zero
          (provisional (fun m' => grad_v_gamma_MF m' w_zero bias_two_log3)
            (fun m' => grad_h_gamma_MF m' w_zero bias_zero)
            ⟨mag_quarter, gamma_MF w_zero bias_two_log3 bias_zero mag_quarter, 0.25⟩) ∧
      gamma_MF w_zero bias_two_log3 bias_zero mag_quarter -
        gamma_MF w_zero bias_two_log3 bias_zero
          (provisional (fun m' => grad_v_gamma_MF m' w_zero bias_two_log3)
            (fun m' => grad_h_gamma_MF m' w_zero bias_zero)
            ⟨mag_quarter, gamma_MF w_zero bias_two_log3 bias_zero mag_quarter, 0.25⟩) <
        1000 ∧
      (provisional (fun m' => grad_v_gamma_MF m' w_zero bias_two_log3)
        (fun m' => grad_h_gamma_MF m' w_zero bias_zero)
        ⟨mag_quarter, gamma_MF w_zero bias_two_log3 bias_zero mag_quarter, 0.25⟩).v 0 =
        0.75 ∧
      mag_quarter.v 0 = 0.25 ∧ (0.25 : ℝ) ≠ 0.75 := by
  have hgv : grad_v_gamma_MF mag_quarter w_zero bias_two_log3 0 = -2 := by
    unfold grad_v_gamma_MF divide mvdot w_zero bias_two_log3 mag_quarter
    simp only [Fin.sum_univ_one]
    rw [show (0.25 : ℝ) / (1 - 0.25) = (3 : ℝ)⁻¹ by norm_num, Real.log_inv]
    ring
  have hgh : grad_h_gamma_MF mag_quarter w_zero bias_zero 0 = 0 := by
    unfold grad_h_gamma_MF divide vmdot w_zero bias_zero mag_quarter
    simp only [Fin.sum_univ_one]
    rw [show (0.5 : ℝ) / (1 - 0.5) = (1 : ℝ) by norm_num, Real.log_one]
    ring
  have hpv : ∀ G : ℝ, (provisional (fun m' => grad_v_gamma_MF m' w_zero bias_two_log3)
      (fun m' => grad_h_gamma_MF m' w_zero bias_zero)
      ⟨mag_quarter, G, 0.25⟩).v 0 = 0.75 := by
    intro G
    show min (max (mag_quarter.v 0 - 0.25 * grad_v_gamma_MF mag_quarter w_zero bias_two_log3 0)
      1e-6) (1 - 1e-6) = 0.75
    rw [hgv, show mag_quarter.v 0 = 0.25 from rfl]
    rw [max_eq_left (by norm_num), min_eq_left (by norm_num)]
    norm_num
  have hph : ∀ G : ℝ, (provisional (fun m' => grad_v_gamma_MF m' w_zero bias_two_log3)
      (fun m' => grad_h_gamma_MF m' w_zero bias_zero)
      ⟨mag_quarter, G, 0.25⟩).h 0 = 0.5 := by
    intro G
    show min (max (mag_quarter.h 0 - 0.25 * grad_h_gamma_MF mag_quarter w_zero bias_zero 0)
      1e-6) (1 - 1e-6) = 0.5
    rw [hgh, show mag_quarter.h 0 = 0.5 from rfl]
    rw [max_eq_left (by norm_num), min_eq_left (by norm_num)]
    norm_num
  have hgm : ∀ m : Mag 1 1, gamma_MF w_zero bias_two_log3 bias_zero m =
      (m.v 0 * Real.log (m.v 0) + (1 - m.v 0) * Real.log (1 - m.v 0)) +
      (m.h 0 * Real.log (m.h 0) + (1 - m.h 0) * Real.log (1 - m.h 0)) -
      2 * (2 - Real.log 3) * m.v 0 := by
    intro m
    unfold gamma_MF tsum dotv mvdot w_zero bias_two_log3 bias_zero
    simp only [Fin.sum_univ_one]
    ring
  have hdiff : ∀ G : ℝ, gamma_MF w_zero bias_two_log3 bias_zero mag_quarter -
      gamma_MF w_zero bias_two_log3 bias_zero
        (provisional (fun m' => grad_v_gamma_MF m' w_zero bias_two_log3)
          (fun m' => grad_h_gamma_MF m' w_zero bias_zero)
          ⟨mag_quarter, G, 0.25⟩) = 2 - Real.log 3 := by
    intro G
    rw [hgm mag_quarter, hgm _, hpv G, hph G,
      show mag_quarter.v 0 = 0.25 from rfl, show mag_quarter.h 0 = 0.5 from rfl]
    norm_num only
    ring
  have h1 : ∀ G : ℝ, ¬(gamma_MF w_zero bias_two_log3 bias_zero mag_quarter -
      gamma_MF w_zero bias_two_log3 bias_zero
        (provisional (fun m' => grad_v_gamma_MF m' w_zero bias_two_log3)
          (fun m' => grad_h_gamma_MF m' w_zero bias_zero)
          ⟨mag_quarter, G, 0.25⟩) < 0) := by
    intro G
    rw [hdiff G]
    have := log_three_lt_two
    linarith
  have h2 : ∀ G : ℝ, gamma_MF w_zero bias_two_log3 bias_zero mag_quarter -
      gamma_MF w_zero bias_two_log3 bias_zero
        (provisional (fun m' => grad_v_gamma_MF m' w_zero bias_two_log3)
          (fun m' => grad_h_gamma_MF m' w_zero bias_zero)
          ⟨mag_quarter, G, 0.25⟩) < 1000 := by
    intro G
    rw [hdiff G]
    have := one_lt_log_three
    linarith
  have hstep : gdStep (gamma_MF w_zero bias_two_log3 bias_zero)
      (fun m' => grad_v_gamma_MF m' w_zero bias_two_log3)
      (fun m' => grad_h_gamma_MF m' w_zero bias_zero) 1000
      ⟨mag_quarter, gamma_MF w_zero bias_two_log3 bias_zero mag_quarter, 0.25⟩ =
      (⟨mag_quarter, gamma_MF w_zero bias_two_log3 bias_zero mag_quarter, 0.25⟩, false) := by
    unfold gdStep
    rw [if_neg (h1 _), if_pos (h2 _)]
  have h0 := gdLoop_succ (gamma_MF w_zero bias_two_log3 bias_zero)
    (fun m' => grad_v_gamma_MF m' w_zero bias_two_log3)
    (fun m' => grad_h_gamma_MF m' w_zero bias_zero) 1000 0
    ⟨mag_quarter, gamma_MF w_zero bias_two_log3 bias_zero mag_quarter, 0.25⟩
  rw [hstep] at h0
  have hloop : gdLoop (gamma_MF w_zero bias_two_log3 bias_zero)
      (fun m' => grad_v_gamma_MF m' w_zero bias_two_log3)
      (fun m' => grad_h_gamma_MF m' w_zero bias_zero) 1000 1
      ⟨mag_quarter, gamma_MF w_zero bias_two_log3 bias_zero mag_quarter, 0.25⟩ =
      ⟨mag_quarter, gamma_MF w_zero bias_two_log3 bias_zero mag_quarter, 0.25⟩ := h0
  refine ⟨?_, le_of_not_lt (h1 _), h2 _, hpv _, rfl, by norm_num⟩
  have hsel : select_gamma w_zero bias_two_log3 bias_zero 1 =
      some (gamma_MF w_zero bias_two_log3 bias_zero,
        fun m' => grad_v_gamma_MF m' w_zero bias_two_log3,
        fun m' => grad_h_gamma_MF m' w_zero bias_zero) := rfl
  rw [minimize_of_select hsel]
  unfold gamma_GD_run
  rw [hloop]

/-- Derivative of a coordinatewise sum in one coordinate: if only summand `i`
depends on `t`, the sum's derivative is that summand's. -/
theorem hasDerivAt_update_sum {n : ℕ} (v : Fin n → ℝ) (i : Fin n) (f : Fin n → ℝ → ℝ)
    (D x : ℝ) (hf : HasDerivAt (f i) D x) :
    HasDerivAt (fun t => ∑ j, f j (Function.update v i t j)) D x := by
  have key : (fun t => ∑ j, f j (Function.update v i t j)) =
      fun t => f i t + ∑ j in Finset.univ.erase i, f j (v j) := by
    funext t
    rw [← Finset.add_sum_erase Finset.univ (fun j => f j (Function.update v i t j))
      (Finset.mem_univ i)]
    congr 1
    · rw [Function.update_same]
    · exact Finset.sum_congr rfl (fun j hj => by
        rw [Function.update_noteq (Finset.ne_of_mem_erase hj)])
  rw [key]
  exact hf.add_const _

/-- Bilinear-form rearrangement `⟨v, W·u⟩ = ⟨vᵀW, u⟩` used to read the coupling
terms coordinatewise in the hidden magnetization. -/
theorem dotv_mvdot_swap {nv nh : ℕ} (v : Fin nv → ℝ) (w : Fin nv → Fin nh → ℝ)
    (u : Fin nh → ℝ) :
    ∑ i, v i * (∑ j, w i j * u j) = ∑ j, (∑ i, v i * w i j) * u j := by
  simp_rw [Finset.mul_sum]
  rw [Finset.sum_comm]
  refine Finset.sum_congr rfl (fun j _ => ?_)
  rw [Finset.sum_mul]
  exact Finset.sum_congr rfl (fun i _ => by ring)

/-- `grad_v_gamma_TAP2` is the partial derivative of `gamma_TAP2` with respect to
each visible component strictly inside `(0, 1)`. -/
theorem grad_v_gamma_TAP2_hasDerivAt {nv nh : ℕ} (w : Fin nv → Fin nh → ℝ)
    (a : Fin nv → ℝ) (b : Fin nh → ℝ) (m : Mag nv nh) (i : Fin nv)
    (h0 : 0 < m.v i) (h1 : m.v i < 1) :
    HasDerivAt (fun t : ℝ => gamma_TAP2 w a b ⟨Function.update m.v i t, m.h⟩)
      (grad_v_gamma_TAP2 m w a i) (m.v i) := by
  have hx' : m.v i ≠ 0 := ne_of_gt h0
  have hx1' : (1 : ℝ) - m.v i ≠ 0 := by linarith
  have hent := hasDerivAt_update_sum m.v i
    (fun _ x => x * Real.log x + (1 - x) * Real.log (1 - x)) _ _
    (hasDerivAt_ent (m.v i) h0 h1)
  have hl : HasDerivAt (fun x : ℝ => x * (a i + mvdot w m.h i))
      (a i + mvdot w m.h i) (m.v i) := by
    have h := (hasDerivAt_id (m.v i)).mul_const (a i + mvdot w m.h i)
    rwa [one_mul] at h
  have hlin := hasDerivAt_update_sum m.v i
    (fun j x => x * (a j + mvdot w m.h j)) (a i + mvdot w m.h i) (m.v i) hl
  have hq : HasDerivAt
      (fun x : ℝ => (x - x ^ 2) *
        mvdot (fun i' j => (w i' j) ^ 2) (fun j => m.h j - (m.h j) ^ 2) i)
      ((1 - 2 * m.v i) *
        mvdot (fun i' j => (w i' j) ^ 2) (fun j => m.h j - (m.h j) ^ 2) i) (m.v i) := by
    have h := ((hasDerivAt_id (m.v i)).sub (hasDerivAt_pow 2 (m.v i))).mul_const
      (mvdot (fun i' j => (w i' j) ^ 2) (fun j => m.h j - (m.h j) ^ 2) i)
    norm_num at h
    exact h
  have hquad := hasDerivAt_update_sum m.v i
    (fun j x => (x - x ^ 2) *
      mvdot (fun i' j' => (w i' j') ^ 2) (fun j' => m.h j' - (m.h j') ^ 2) j) _ _ hq
  have H := (((hent.add_const
      (∑ j, (m.h j * Real.log (m.h j) + (1 - m.h j) * Real.log (1 - m.h j)))).sub_const
      (∑ j, b j * m.h j)).sub hlin).sub (hquad.const_mul 0.5)
  have hval : grad_v_gamma_TAP2 m w a i =
      Real.log (m.v i) - Real.log (1 - m.v i) - (a i + mvdot w m.h i) -
        0.5 * ((1 - 2 * m.v i) *
          mvdot (fun i' j => (w i' j) ^ 2) (fun j => m.h j - (m.h j) ^ 2) i) := by
    unfold grad_v_gamma_TAP2 divide
    rw [Real.log_div hx' hx1']
    ring
  rw [hval]
  exact H

/-- The third-order coupling sum read coordinatewise in the visible
magnetization. -/
theorem tap3_cube_rearrange {nv nh : ℕ} (w : Fin nv → Fin nh → ℝ) (hh : Fin nh → ℝ)
    (vv : Fin nv → ℝ) :
    ∑ i, ∑ j, ((0.5 - hh j) * (hh j - hh j ^ 2)) *
        (((0.5 - vv i) * (vv i - vv i ^ 2)) * ((w i j) ^ 2 * w i j)) =
    ∑ i, ((0.5 - vv i) * (vv i - vv i ^ 2)) *
        mvdot (fun i' j => (w i' j) ^ 2 * w i' j)
          (fun j => (0.5 - hh j) * (hh j - hh j ^ 2)) i := by
  refine Finset.sum_congr rfl (fun i _ => ?_)
  unfold mvdot
  rw [Finset.mul_sum]
  exact Finset.sum_congr rfl (fun j _ => by ring)

/-- Derivative of the cubic per-coordinate factor `(0.5 - x)(x - x^2) * c`. -/
theorem hasDerivAt_cubic_factor (x c : ℝ) :
    HasDerivAt (fun t : ℝ => ((0.5 - t) * (t - t ^ 2)) * c)
      ((0.5 - 3 * x + 3 * x ^ 2) * c) x := by
  have h := (((hasDerivAt_const x (0.5 : ℝ)).sub (hasDerivAt_id x)).mul
    ((hasDerivAt_id x).sub (hasDerivAt_pow 2 x))).mul_const c
  have he : ((0 - 1) * (id x - x ^ 2) + (0.5 - id x) * (1 - (↑(2 : ℕ) : ℝ) * x ^ (2 - 1))) * c =
      (0.5 - 3 * x + 3 * x ^ 2) * c := by
    simp only [id_eq]
    push_cast
    ring
  rwa [he] at h

set_option maxHeartbeats 1000000 in
/-- `grad_v_gamma_TAP3` is the partial derivative of `gamma_TAP3` with respect to
each visible component strictly inside `(0, 1)`. -/
theorem grad_v_gamma_TAP3_hasDerivAt {nv nh : ℕ} (w : Fin nv → Fin nh → ℝ)
    (a : Fin nv → ℝ) (b : Fin nh → ℝ) (m : Mag nv nh) (i : Fin nv)
    (h0 : 0 < m.v i) (h1 : m.v i < 1) :
    HasDerivAt (fun t : ℝ => gamma_TAP3 w a b ⟨Function.update m.v i t, m.h⟩)
      (grad_v_gamma_TAP3 m w a i) (m.v i) := by
  have hx' : m.v i ≠ 0 := ne_of_gt h0
  have hx1' : (1 : ℝ) - m.v i ≠ 0 := by linarith
  have hfun : (fun t : ℝ => gamma_TAP3 w a b ⟨Function.update m.v i t, m.h⟩) =
      fun t : ℝ =>
        (∑ j, (Function.update m.v i t j * Real.log (Function.update m.v i t j) +
          (1 - Function.update m.v i t j) * Real.log (1 - Function.update m.v i t j))) +
        (∑ j, (m.h j * Real.log (m.h j) + (1 - m.h j) * Real.log (1 - m.h j))) -
        (∑ j, b j * m.h j) -
        (∑ j, Function.update m.v i t j * (a j + mvdot w m.h j)) -
        0.5 * (∑ j, (Function.update m.v i t j - Function.update m.v i t j ^ 2) *
          mvdot (fun i' j' => (w i' j') ^ 2) (fun j' => m.h j' - (m.h j') ^ 2) j) -
        4 / 3 * (∑ j, ((0.5 - Function.update m.v i t j) *
            (Function.update m.v i t j - Function.update m.v i t j ^ 2)) *
          mvdot (fun i' j' => (w i' j') ^ 2 * w i' j')
            (fun j' => (0.5 - m.h j') * (m.h j' - (m.h j') ^ 2)) j) := by
    funext t
    unfold gamma_TAP3 tsum dotv
    dsimp only
    rw [tap3_cube_rearrange w m.h (Function.update m.v i t)]
  have hent := hasDerivAt_update_sum m.v i
    (fun _ x => x * Real.log x + (1 - x) * Real.log (1 - x)) _ _
    (hasDerivAt_ent (m.v i) h0 h1)
  have hl : HasDerivAt (fun x : ℝ => x * (a i + mvdot w m.h i))
      (a i + mvdot w m.h i) (m.v i) := by
    have h := (hasDerivAt_id (m.v i)).mul_const (a i + mvdot w m.h i)
    rwa [one_mul] at h
  have hlin := hasDerivAt_update_sum m.v i
    (fun j x => x * (a j + mvdot w m.h j)) (a i + mvdot w m.h i) (m.v i) hl
  have hq : HasDerivAt
      (fun x : ℝ => (x - x ^ 2) *
        mvdot (fun i' j => (w i' j) ^ 2) (fun j => m.h j - (m.h j) ^ 2) i)
      ((1 - 2 * m.v i) *
        mvdot (fun i' j => (w i' j) ^ 2) (fun j => m.h j - (m.h j) ^ 2) i) (m.v i) := by
    have h := ((hasDerivAt_id (m.v i)).sub (hasDerivAt_pow 2 (m.v i))).mul_const
      (mvdot (fun i' j => (w i' j) ^ 2) (fun j => m.h j - (m.h j) ^ 2) i)
    norm_num at h
    exact h
  have hquad := hasDerivAt_update_sum m.v i
    (fun j x => (x - x ^ 2) *
      mvdot (fun i' j' => (w i' j') ^ 2) (fun j' => m.h j' - (m.h j') ^ 2) j) _ _ hq
  have hcube := hasDerivAt_update_sum m.v i
    (fun j x => ((0.5 - x) * (x - x ^ 2)) *
      mvdot (fun i' j' => (w i' j') ^ 2 * w i' j')
        (fun j' => (0.5 - m.h j') * (m.h j' - (m.h j') ^ 2)) j) _ _
    (hasDerivAt_cubic_factor (m.v i)
      (mvdot (fun i' j' => (w i' j') ^ 2 * w i' j')
        (fun j' => (0.5 - m.h j') * (m.h j' - (m.h j') ^ 2)) i))
  have H := ((((hent.add_const
      (∑ j, (m.h j * Real.log (m.h j) + (1 - m.h j) * Real.log (1 - m.h j)))).sub_const
      (∑ j, b j * m.h j)).sub hlin).sub (hquad.const_mul 0.5)).sub
      (hcube.const_mul (4 / 3))
  have hval : grad_v_gamma_TAP3 m w a i =
      Real.log (m.v i) - Real.log (1 - m.v i) - (a i + mvdot w m.h i) -
        0.5 * ((1 - 2 * m.v i) *
          mvdot (fun i' j => (w i' j) ^ 2) (fun j => m.h j - (m.h j) ^ 2) i) -
        4 / 3 * ((0.5 - 3 * m.v i + 3 * (m.v i) ^ 2) *
          mvdot (fun i' j' => (w i' j') ^ 2 * w i' j')
            (fun j' => (0.5 - m.h j') * (m.h j' - (m.h j') ^ 2)) i) := by
    unfold grad_v_gamma_TAP3 divide
    rw [Real.log_div hx' hx1']
    ring
  rw [hfun, hval]
  exact H

/-- Splitting `⟨v, a + W·u⟩` into `⟨v, a⟩` plus the swapped bilinear form. -/
theorem dotv_affine_split {nv nh : ℕ} (v a : Fin nv → ℝ) (w : Fin nv → Fin nh → ℝ)
    (u : Fin nh → ℝ) :
    ∑ i, v i * (a i + ∑ j, w i j * u j) =
      (∑ i, v i * a i) + ∑ j, (∑ i, v i * w i j) * u j := by
  calc ∑ i, v i * (a i + ∑ j, w i j * u j)
      = ∑ i, (v i * a i + v i * (∑ j, w i j * u j)) :=
        Finset.sum_congr rfl (fun i _ => mul_add _ _ _)
    _ = (∑ i, v i * a i) + ∑ i, v i * (∑ j, w i j * u j) := Finset.sum_add_distrib
    _ = (∑ i, v i * a i) + ∑ j, (∑ i, v i * w i j) * u j := by rw [dotv_mvdot_swap]

/-- The third-order coupling sum read coordinatewise in the hidden
magnetization. -/
theorem tap3_cube_rearrange_h {nv nh : ℕ} (w : Fin nv → Fin nh → ℝ) (vv : Fin nv → ℝ)
    (uu : Fin nh → ℝ) :
    ∑ i, ∑ j, ((0.5 - uu j) * (uu j - uu j ^ 2)) *
        (((0.5 - vv i) * (vv i - vv i ^ 2)) * ((w i j) ^ 2 * w i j)) =
    ∑ j, ((0.5 - uu j) * (uu j - uu j ^ 2)) *
        (∑ i, ((0.5 - vv i) * (vv i - vv i ^ 2)) * ((w i j) ^ 2 * w i j)) := by
  rw [Finset.sum_comm]
  refine Finset.sum_congr rfl (fun j _ => ?_)
  rw [Finset.mul_sum]

/-- Derivative of the linear per-coordinate factor `c * x`. -/
theorem hasDerivAt_const_mul_id (x c : ℝ) :
    HasDerivAt (fun t : ℝ => c * t) c x := by
  have h := (hasDerivAt_id x).const_mul c
  rwa [mul_one] at h

/-- Derivative of the quadratic per-coordinate factor `c * (x - x^2)`. -/
theorem hasDerivAt_quad_factor_left (x c : ℝ) :
    HasDerivAt (fun t : ℝ => c * (t - t ^ 2)) (c * (1 - 2 * x)) x := by
  have h := ((hasDerivAt_id x).sub (hasDerivAt_pow 2 x)).const_mul c
  have he : c * (1 - (↑(2 : ℕ) : ℝ) * x ^ (2 - 1)) = c * (1 - 2 * x) := by
    push_cast
    ring
  rwa [he] at h

/-- `grad_h_gamma_MF` is the partial derivative of `gamma_MF` with respect to each
hidden component strictly inside `(0, 1)`: the order-1 bug is confined to the
visible gradient. -/
theorem grad_h_gamma_MF_hasDerivAt {nv nh : ℕ} (w : Fin nv → Fin nh → ℝ)
    (a : Fin nv → ℝ) (b : Fin nh → ℝ) (m : Mag nv nh) (j : Fin nh)
    (h0 : 0 < m.h j) (h1 : m.h j < 1) :
    HasDerivAt (fun t : ℝ => gamma_MF w a b ⟨m.v, Function.update m.h j t⟩)
      (grad_h_gamma_MF m w b j) (m.h j) := by
  have hx' : m.h j ≠ 0 := ne_of_gt h0
  have hx1' : (1 : ℝ) - m.h j ≠ 0 := by linarith
  have hfun : (fun t : ℝ => gamma_MF w a b ⟨m.v, Function.update m.h j t⟩) =
      fun t : ℝ =>
        (∑ i, (m.v i * Real.log (m.v i) + (1 - m.v i) * Real.log (1 - m.v i))) +
        (∑ i, (Function.update m.h j t i * Real.log (Function.update m.h j t i) +
          (1 - Function.update m.h j t i) * Real.log (1 - Function.update m.h j t i))) -
        (∑ i, a i * m.v i) -
        (∑ i, b i * Function.update m.h j t i) -
        ((∑ i, m.v i * a i) +
          ∑ j', (∑ i, m.v i * w i j') * Function.update m.h j t j') := by
    funext t
    unfold gamma_MF tsum dotv mvdot
    dsimp only
    rw [dotv_affine_split m.v a w (Function.update m.h j t)]
  have hent := hasDerivAt_update_sum m.h j
    (fun _ x => x * Real.log x + (1 - x) * Real.log (1 - x)) _ _
    (hasDerivAt_ent (m.h j) h0 h1)
  have hb := hasDerivAt_update_sum m.h j (fun i x => b i * x) (b j) (m.h j)
    (hasDerivAt_const_mul_id (m.h j) (b j))
  have hw := hasDerivAt_update_sum m.h j
    (fun j' x => (∑ i, m.v i * w i j') * x) (∑ i, m.v i * w i j) (m.h j)
    (hasDerivAt_const_mul_id (m.h j) (∑ i, m.v i * w i j))
  have H := (((hent.const_add
      (∑ i, (m.v i * Real.log (m.v i) + (1 - m.v i) * Real.log (1 - m.v i)))).sub_const
      (∑ i, a i * m.v i)).sub hb).sub (hw.const_add (∑ i, m.v i * a i))
  have hval : grad_h_gamma_MF m w b j =
      Real.log (m.h j) - Real.log (1 - m.h j) - b j - (∑ i, m.v i * w i j) := by
    unfold grad_h_gamma_MF divide vmdot
    rw [Real.log_div hx' hx1']
  rw [hfun, hval]
  exact H

set_option maxHeartbeats 1000000 in
/-- `grad_h_gamma_TAP2` is the partial derivative of `gamma_TAP2` with respect to
each hidden component strictly inside `(0, 1)`. -/
theorem grad_h_gamma_TAP2_hasDerivAt {nv nh : ℕ} (w : Fin nv → Fin nh → ℝ)
    (a : Fin nv → ℝ) (b : Fin nh → ℝ) (m : Mag nv nh) (j : Fin nh)
    (h0 : 0 < m.h j) (h1 : m.h j < 1) :
    HasDerivAt (fun t : ℝ => gamma_TAP2 w a b ⟨m.v, Function.update m.h j t⟩)
      (grad_h_gamma_TAP2 m w b j) (m.h j) := by
  have hx' : m.h j ≠ 0 := ne_of_gt h0
  have hx1' : (1 : ℝ) - m.h j ≠ 0 := by linarith
  have hfun : (fun t : ℝ => gamma_TAP2 w a b ⟨m.v, Function.update m.h j t⟩) =
      fun t : ℝ =>
        (∑ i, (m.v i * Real.log (m.v i) + (1 - m.v i) * Real.log (1 - m.v i))) +
        (∑ i, (Function.update m.h j t i * Real.log (Function.update m.h j t i) +
          (1 - Function.update m.h j t i) * Real.log (1 - Function.update m.h j t i))) -
        (∑ i, b i * Function.update m.h j t i) -
        ((∑ i, m.v i * a i) +
          ∑ j', (∑ i, m.v i * w i j') * Function.update m.h j t j') -
        0.5 * (∑ j', (∑ i, (m.v i - m.v i ^ 2) * (w i j') ^ 2) *
          (Function.update m.h j t j' - Function.update m.h j t j' ^ 2)) := by
    funext t
    unfold gamma_TAP2 tsum dotv mvdot
    dsimp only
    rw [dotv_affine_split m.v a w (Function.update m.h j t),
      dotv_mvdot_swap (fun i => m.v i - m.v i ^ 2) (fun i j' => (w i j') ^ 2)
        (fun j' => Function.update m.h j t j' - Function.update m.h j t j' ^ 2)]
  have hent := hasDerivAt_update_sum m.h j
    (fun _ x => x * Real.log x + (1 - x) * Real.log (1 - x)) _ _
    (hasDerivAt_ent (m.h j) h0 h1)
  have hb := hasDerivAt_update_sum m.h j (fun i x => b i * x) (b j) (m.h j)
    (hasDerivAt_const_mul_id (m.h j) (b j))
  have hw := hasDerivAt_update_sum m.h j
    (fun j' x => (∑ i, m.v i * w i j') * x) (∑ i, m.v i * w i j) (m.h j)
    (hasDerivAt_const_mul_id (m.h j) (∑ i, m.v i * w i j))
  have hquad := hasDerivAt_update_sum m.h j
    (fun j' x => (∑ i, (m.v i - m.v i ^ 2) * (w i j') ^ 2) * (x - x ^ 2))
    ((∑ i, (m.v i - m.v i ^ 2) * (w i j) ^ 2) * (1 - 2 * m.h j)) (m.h j)
    (hasDerivAt_quad_factor_left (m.h j) (∑ i, (m.v i - m.v i ^ 2) * (w i j) ^ 2))
  have H := ((((hent.const_add
      (∑ i, (m.v i * Real.log (m.v i) + (1 - m.v i) * Real.log (1 - m.v i)))).sub hb).sub
      (hw.const_add (∑ i, m.v i * a i))).sub (hquad.const_mul 0.5))
  have hval : grad_h_gamma_TAP2 m w b j =
      Real.log (m.h j) - Real.log (1 - m.h j) - b j - (∑ i, m.v i * w i j) -
        0.5 * ((∑ i, (m.v i - m.v i ^ 2) * (w i j) ^ 2) * (1 - 2 * m.h j)) := by
    unfold grad_h_gamma_TAP2 divide vmdot
    rw [Real.log_div hx' hx1']
    ring
  rw [hfun, hval]
  exact H

set_option maxHeartbeats 1000000 in
/-- `grad_h_gamma_TAP3` is the partial derivative of `gamma_TAP3` with respect to
each hidden component strictly inside `(0, 1)`. -/
theorem grad_h_gamma_TAP3_hasDerivAt {nv nh : ℕ} (w : Fin nv → Fin nh → ℝ)
    (a : Fin nv → ℝ) (b : Fin nh → ℝ) (m : Mag nv nh) (j : Fin nh)
    (h0 : 0 < m.h j) (h1 : m.h j < 1) :
    HasDerivAt (fun t : ℝ => gamma_TAP3 w a b ⟨m.v, Function.update m.h j t⟩)
      (grad_h_gamma_TAP3 m w b j) (m.h j) := by
  have hx' : m.h j ≠ 0 := ne_of_gt h0
  have hx1' : (1 : ℝ) - m.h j ≠ 0 := by linarith
  have hfun : (fun t : ℝ => gamma_TAP3 w a b ⟨m.v, Function.update m.h j t⟩) =
      fun t : ℝ =>
        (∑ i, (m.v i * Real.log (m.v i) + (1 - m.v i) * Real.log (1 - m.v i))) +
        (∑ i, (Function.update m.h j t i * Real.log (Function.update m.h j t i) +
          (1 - Function.update m.h j t i) * Real.log (1 - Function.update m.h j t i))) -
        (∑ i, b i * Function.update m.h j t i) -
        ((∑ i, m.v i * a i) +
          ∑ j', (∑ i, m.v i * w i j') * Function.update m.h j t j') -
        0.5 * (∑ j', (∑ i, (m.v i - m.v i ^ 2) * (w i j') ^ 2) *
          (Function.update m.h j t j' - Function.update m.h j t j' ^ 2)) -
        4 / 3 * (∑ j', ((0.5 - Function.update m.h j t j') *
            (Function.update m.h j t j' - Function.update m.h j t j' ^ 2)) *
          (∑ i, ((0.5 - m.v i) * (m.v i - m.v i ^ 2)) * ((w i j') ^ 2 * w i j'))) := by
    funext t
    unfold gamma_TAP3 tsum dotv mvdot
    dsimp only
    rw [dotv_affine_split m.v a w (Function.update m.h j t),
      dotv_mvdot_swap (fun i => m.v i - m.v i ^ 2) (fun i j' => (w i j') ^ 2)
        (fun j' => Function.update m.h j t j' - Function.update m.h j t j' ^ 2),
      tap3_cube_rearrange_h w m.v (Function.update m.h j t)]
  have hent := hasDerivAt_update_sum m.h j
    (fun _ x => x * Real.log x + (1 - x) * Real.log (1 - x)) _ _
    (hasDerivAt_ent (m.h j) h0 h1)
  have hb := hasDerivAt_update_sum m.h j (fun i x => b i * x) (b j) (m.h j)
    (hasDerivAt_const_mul_id (m.h j) (b j))
  have hw := hasDerivAt_update_sum m.h j
    (fun j' x => (∑ i, m.v i * w i j') * x) (∑ i, m.v i * w i j) (m.h j)
    (hasDerivAt_const_mul_id (m.h j) (∑ i, m.v i * w i j))
  have hquad := hasDerivAt_update_sum m.h j
    (fun j' x => (∑ i, (m.v i - m.v i ^ 2) * (w i j') ^ 2) * (x - x ^ 2))
    ((∑ i, (m.v i - m.v i ^ 2) * (w i j) ^ 2) * (1 - 2 * m.h j)) (m.h j)
    (hasDerivAt_quad_factor_left (m.h j) (∑ i, (m.v i - m.v i ^ 2) * (w i j) ^ 2))
  have hcube := hasDerivAt_update_sum m.h j
    (fun j' x => ((0.5 - x) * (x - x ^ 2)) *
      (∑ i, ((0.5 - m.v i) * (m.v i - m.v i ^ 2)) * ((w i j') ^ 2 * w i j')))
    ((0.5 - 3 * m.h j + 3 * (m.h j) ^ 2) *
      (∑ i, ((0.5 - m.v i) * (m.v i - m.v i ^ 2)) * ((w i j) ^ 2 * w i j))) (m.h j)
    (hasDerivAt_cubic_factor (m.h j)
      (∑ i, ((0.5 - m.v i) * (m.v i - m.v i ^ 2)) * ((w i j) ^ 2 * w i j)))
  have H := (((((hent.const_add
      (∑ i, (m.v i * Real.log (m.v i) + (1 - m.v i) * Real.log (1 - m.v i)))).sub hb).sub
      (hw.const_add (∑ i, m.v i * a i))).sub (hquad.const_mul 0.5)).sub
      (hcube.const_mul (4 / 3)))
  have hval : grad_h_gamma_TAP3 m w b j =
      Real.log (m.h j) - Real.log (1 - m.h j) - b j - (∑ i, m.v i * w i j) -
        0.5 * ((∑ i, (m.v i - m.v i ^ 2) * (w i j) ^ 2) * (1 - 2 * m.h j)) -
        4 / 3 * ((0.5 - 3 * m.h j + 3 * (m.h j) ^ 2) *
          (∑ i, ((0.5 - m.v i) * (m.v i - m.v i ^ 2)) * ((w i j) ^ 2 * w i j))) := by
    unfold grad_h_gamma_TAP3 divide vmdot
    rw [Real.log_div hx' hx1']
    ring
  rw [hfun, hval]
  exact H

end

end Paysage
